import Mathlib

/-!
Verification development for the wikipedia index/query tool.

Shallow embedding conventions:
* Rust strings are modelled as `List Char`; where the code works on raw UTF-8
  bytes (percent-decoding, `String::from_utf8`), bytes are modelled as `Nat`
  and an explicit UTF-8 encoder/decoder connects the two views.
* Machine integers (`u32` article ids, `u64` byte offsets) are modelled as
  `Nat`; the only subtractions performed by the code on `u64` are saturating
  or on values where the code keeps the minuend at least as large, so `Nat`
  truncated subtraction is faithful.
* Fallible code (a Rust `panic!`/`unwrap` failure) is modelled by `Option`
  results, `none` meaning the code panics.
* `HashMap`/`BTreeMap` values are modelled as association lists; `BTreeMap`
  is kept sorted by strictly ascending keys, mirroring its iteration order.
* Potentially diverging loops take an explicit fuel argument; `none` means
  the loop has not returned within the given fuel.

All definitions are translated from the Rust sources in `src/`; the few
helpers that are referenced but missing from `src/` are modelled from the
specification and say so in their doc comment.
-/

/-- Association-list lookup; models `HashMap::get`/`BTreeMap::get` on the
    list of entries (first match wins; the maps we build have unique keys). -/
def lookupA {α β : Type _} [DecidableEq α] : List (α × β) → α → Option β
  | [], _ => none
  | (k, v) :: t, a => if k = a then some v else lookupA t a

/-- Key-membership test, models `HashMap::contains_key`. -/
def containsKeyA {α β : Type _} [DecidableEq α] (l : List (α × β)) (a : α) : Bool :=
  (lookupA l a).isSome

/-- Insert-or-replace, models `HashMap::insert` (keeps one entry per key). -/
def insertA {α β : Type _} [DecidableEq α] : List (α × β) → α → β → List (α × β)
  | [], a, b => [(a, b)]
  | (k, v) :: t, a, b => if k = a then (a, b) :: t else (k, v) :: insertA t a b

theorem lookupA_insertA_same {α β : Type _} [DecidableEq α]
    (l : List (α × β)) (a : α) (b : β) : lookupA (insertA l a b) a = some b := by
  induction l with
  | nil => simp [insertA, lookupA]
  | cons p t ih =>
    obtain ⟨k, v⟩ := p
    by_cases hk : k = a
    · simp [insertA, hk, lookupA]
    · simp [insertA, hk, lookupA, ih]

theorem lookupA_insertA_other {α β : Type _} [DecidableEq α]
    (l : List (α × β)) (a a' : α) (b : β) (h : a' ≠ a) :
    lookupA (insertA l a b) a' = lookupA l a' := by
  induction l with
  | nil => simp [insertA, lookupA, Ne.symm h]
  | cons p t ih =>
    obtain ⟨k, v⟩ := p
    by_cases hk : k = a
    · subst hk
      simp [insertA, lookupA, Ne.symm h]
    · simp [insertA, hk, lookupA, ih]

theorem lookupA_mem {α β : Type _} [DecidableEq α]
    {l : List (α × β)} {a : α} {b : β} (h : lookupA l a = some b) : (a, b) ∈ l := by
  induction l with
  | nil => simp [lookupA] at h
  | cons p t ih =>
    obtain ⟨k, v⟩ := p
    by_cases hk : k = a
    · subst hk
      simp [lookupA] at h
      simp [h]
    · simp [lookupA, hk] at h
      exact List.mem_cons_of_mem _ (ih h)

theorem mem_lookupA_isSome {α β : Type _} [DecidableEq α]
    {l : List (α × β)} {a : α} {b : β} (h : (a, b) ∈ l) : (lookupA l a).isSome := by
  induction l with
  | nil => simp at h
  | cons p t ih =>
    obtain ⟨k, v⟩ := p
    rcases List.mem_cons.mp h with h1 | h2
    · cases h1
      simp [lookupA]
    · by_cases hk : k = a
      · simp [lookupA, hk]
      · simpa [lookupA, hk] using ih h2

theorem containsKeyA_exists {α β : Type _} [DecidableEq α]
    {l : List (α × β)} {a : α} (h : containsKeyA l a = true) : ∃ b, (a, b) ∈ l := by
  unfold containsKeyA at h
  cases hl : lookupA l a with
  | none => rw [hl] at h; simp at h
  | some b => exact ⟨b, lookupA_mem hl⟩

/-! ## Title canonicalisation (`src/titles.rs`)

`canonicalise_wikilink` is embedded byte-faithfully: the input `List Char`
is UTF-8 encoded, percent-decoded on bytes (the `percent_encoding` crate),
re-validated as UTF-8 (`String::from_utf8(...).unwrap()`: `none` = panic),
HTML-entity decoded, and then recombined exactly as the Rust does —
including the quirk that the tail comes from the *pre-decoded* string
(`input.chars().skip(1)`). -/

/-- One hex digit of a byte, as used by `percent_encoding` (`%XY`, case
    insensitive). -/
def hexDigitByte (b : Nat) : Option Nat :=
  if 48 ≤ b ∧ b ≤ 57 then some (b - 48)
  else if 97 ≤ b ∧ b ≤ 102 then some (b - 87)
  else if 65 ≤ b ∧ b ≤ 70 then some (b - 55)
  else none

/-- Byte-level percent-decoding, models `percent_encoding::percent_decode_str`:
    a `%` followed by two hex digits becomes one byte, anything else passes
    through unchanged. -/
def percentDecode : List Nat → List Nat
  | [] => []
  | 37 :: h1 :: h2 :: rest2 =>
    match hexDigitByte h1, hexDigitByte h2 with
    | some d1, some d2 => (16 * d1 + d2) :: percentDecode rest2
    | _, _ => 37 :: percentDecode (h1 :: h2 :: rest2)
  | b :: rest => b :: percentDecode rest

/-- Standard UTF-8 encoding of one scalar value. -/
def utf8EncodeChar (c : Char) : List Nat :=
  let n := c.toNat
  if n < 0x80 then [n]
  else if n < 0x800 then [0xC0 + n / 64, 0x80 + n % 64]
  else if n < 0x10000 then [0xE0 + n / 4096, 0x80 + n / 64 % 64, 0x80 + n % 64]
  else [0xF0 + n / 0x40000, 0x80 + n / 4096 % 64, 0x80 + n / 64 % 64, 0x80 + n % 64]

/-- UTF-8 encoding of a string (Rust strings are UTF-8 bytes). -/
def utf8Encode (l : List Char) : List Nat :=
  (l.map utf8EncodeChar).flatten

/-- Whether a byte is a UTF-8 continuation byte `10xxxxxx`. -/
def utf8IsCont (b : Nat) : Bool := 0x80 ≤ b ∧ b < 0xC0

/-- Fuel-indexed core of the UTF-8 decoder (fuel only to make the recursion
    structural; the wrapper supplies enough fuel for any input). -/
def utf8DecodeAux : Nat → List Nat → Option (List Char)
  | _, [] => some []
  | 0, _ :: _ => none
  | fuel + 1, b :: rest =>
    if b < 0x80 then (fun cs => Char.ofNat b :: cs) <$> utf8DecodeAux fuel rest
    else if b < 0xC2 then none
    else if b < 0xE0 then
      match rest with
      | b2 :: rest2 =>
        if utf8IsCont b2 then
          (fun cs => Char.ofNat ((b - 0xC0) * 64 + (b2 - 0x80)) :: cs) <$>
            utf8DecodeAux fuel rest2
        else none
      | _ => none
    else if b < 0xF0 then
      match rest with
      | b2 :: b3 :: rest2 =>
        if utf8IsCont b2 ∧ utf8IsCont b3 then
          let n := (b - 0xE0) * 4096 + (b2 - 0x80) * 64 + (b3 - 0x80)
          if n < 0x800 ∨ (0xD800 ≤ n ∧ n < 0xE000) then none
          else (fun cs => Char.ofNat n :: cs) <$> utf8DecodeAux fuel rest2
        else none
      | _ => none
    else if b < 0xF5 then
      match rest with
      | b2 :: b3 :: b4 :: rest2 =>
        if utf8IsCont b2 ∧ utf8IsCont b3 ∧ utf8IsCont b4 then
          let n := (b - 0xF0) * 0x40000 + (b2 - 0x80) * 4096 + (b3 - 0x80) * 64 + (b4 - 0x80)
          if n < 0x10000 ∨ 0x110000 ≤ n then none
          else (fun cs => Char.ofNat n :: cs) <$> utf8DecodeAux fuel rest2
        else none
      | _ => none
    else none

/-- Strict UTF-8 decoding (rejects overlong forms, surrogates and
    out-of-range values), models the validation done by
    `String::from_utf8`; `none` means the Rust `unwrap` panics.
    Each step consumes at least one byte, so `l.length` fuel always
    suffices and the fuel never runs out. -/
def utf8Decode (l : List Nat) : Option (List Char) :=
  utf8DecodeAux l.length l

/-- Split a list at the first `;`, used by the entity decoder model. -/
def splitAtSemi : List Char → Option (List Char × List Char)
  | [] => none
  | c :: rest =>
    if c = ';' then some ([], rest)
    else (fun p => (c :: p.1, p.2)) <$> splitAtSemi rest

theorem splitAtSemi_snd_length {l a b : List Char}
    (h : splitAtSemi l = some (a, b)) : b.length < l.length := by
  induction l generalizing a b with
  | nil => simp [splitAtSemi] at h
  | cons c rest ih =>
    unfold splitAtSemi at h
    by_cases hc : c = ';'
    · simp [hc] at h
      obtain ⟨-, h2⟩ := h
      subst h2
      simp
    · rw [if_neg hc] at h
      cases hsp : splitAtSemi rest with
      | none => rw [hsp] at h; simp at h
      | some p =>
        rw [hsp] at h
        simp at h
        have hlt := ih (a := p.1) (b := p.2) (by rw [hsp])
        obtain ⟨-, h2⟩ := h
        rw [h2] at hlt
        simpa using Nat.lt_succ_of_lt hlt

/-- Parse a nonempty decimal digit string. -/
def parseDecimal : List Char → Option Nat
  | [] => none
  | l => if l.all Char.isDigit
      then some (l.foldl (fun a c => 10 * a + (c.toNat - 48)) 0)
      else none

/-- The body of one HTML entity (between `&` and `;`).
    Models the `html_escape` crate's `decode_html_entities` on the named
    entities relevant to wiki titles plus numeric entities; unknown bodies
    are passed through literally, as the crate does. -/
def decodeEntityBody (body : List Char) : Option (List Char) :=
  if body = "amp".toList then some ['&']
  else if body = "lt".toList then some ['<']
  else if body = "gt".toList then some ['>']
  else if body = "quot".toList then some ['"']
  else if body = "apos".toList then some ['\'']
  else if body = "nbsp".toList then some [Char.ofNat 0xA0]
  else
    match body with
    | '#' :: digits =>
      match parseDecimal digits with
      | some n =>
        if n < 0x110000 ∧ ¬(0xD800 ≤ n ∧ n < 0xE000) ∧ 0 < n
        then some [Char.ofNat n]
        else some [Char.ofNat 0xFFFD]
      | none => none
    | _ => none

/-- Fuel-indexed core of the entity decoder (fuel only to make the recursion
    structural; one unit of fuel is spent per character consumed, so the
    input length always suffices). -/
def decodeHtmlEntitiesAux : Nat → List Char → List Char
  | _, [] => []
  | 0, l => l
  | fuel + 1, c :: rest =>
    if c = '&' then
      match splitAtSemi rest with
      | some (body, rest2) =>
        match decodeEntityBody body with
        | some repl => repl ++ decodeHtmlEntitiesAux fuel rest2
        | none => c :: decodeHtmlEntitiesAux fuel rest
      | none => c :: decodeHtmlEntitiesAux fuel rest
    else c :: decodeHtmlEntitiesAux fuel rest

/-- Model of `html_escape::decode_html_entities`: scan for `&name;` /
    `&#nnn;` sequences and replace the recognised ones. -/
def decodeHtmlEntitiesModel (l : List Char) : List Char :=
  decodeHtmlEntitiesAux l.length l

/-- Split at the first occurrence of a character, models `str::split_once`. -/
def splitOnceChar (c : Char) : List Char → Option (List Char × List Char)
  | [] => none
  | x :: xs =>
    if x = c then some ([], xs)
    else (fun p => (x :: p.1, p.2)) <$> splitOnceChar c xs

/-- Char-wise lowercasing for ASCII and Latin-1, a model of Rust
    `str::to_lowercase` restricted to the characters that can occur in the
    fixed namespace table comparison. -/
def toLowerModel (c : Char) : Char :=
  let n := c.toNat
  if 65 ≤ n ∧ n ≤ 90 then Char.ofNat (n + 32)
  else if 0xC0 ≤ n ∧ n ≤ 0xDE ∧ n ≠ 0xD7 then Char.ofNat (n + 32)
  else c

/-- Uppercasing of one character, a model of Rust `char::to_uppercase`
    (which may produce several characters) for ASCII and Latin-1. -/
def uppercaseCharModel (c : Char) : List Char :=
  let n := c.toNat
  if 97 ≤ n ∧ n ≤ 122 then [Char.ofNat (n - 32)]
  else if n = 0xDF then ['S', 'S']
  else if n = 0xFF then [Char.ofNat 0x178]
  else if 0xE0 ≤ n ∧ n ≤ 0xFE ∧ n ≠ 0xF7 then [Char.ofNat (n - 32)]
  else [c]

/-- Model of `str::trim` (whitespace at both ends removed). -/
def trimModel (l : List Char) : List Char :=
  ((l.dropWhile Char.isWhitespace).reverse.dropWhile Char.isWhitespace).reverse

/-- The namespace table of `canonicalise_wikilink`: lowercased form to
    canonical casing. -/
def namespaceTable : List (List Char × List Char) :=
  [("main".toList, "Main".toList), ("article".toList, "Article".toList),
   ("user".toList, "User".toList), ("wikipedia".toList, "Wikipedia".toList),
   ("file".toList, "File".toList), ("mediawiki".toList, "MediaWiki".toList),
   ("template".toList, "Template".toList), ("help".toList, "Help".toList),
   ("category".toList, "Category".toList), ("portal".toList, "Portal".toList),
   ("draft".toList, "Draft".toList), ("timedtext".toList, "TimedText".toList),
   ("module".toList, "Module".toList), ("special".toList, "Special".toList),
   ("media".toList, "Media".toList)]

/-- The namespace-splitting prelude of `canonicalise_wikilink`: split once on
    `:`; if the trimmed, lowercased head is a known namespace, the remainder
    is the part after the colon, otherwise the whole input is kept. -/
def namespaceSplitPart (input : List Char) : Option (List Char) × List Char :=
  match splitOnceChar ':' input with
  | some (pre, rest) =>
    match lookupA namespaceTable ((trimModel pre).map toLowerModel) with
    | some canonNs => (some canonNs, rest)
    | none => (none, input)
  | none => (none, input)

/-- Model of Rust `str::split` on one char (keeps empty segments). -/
def splitOnChar (c : Char) : List Char → List (List Char)
  | [] => [[]]
  | x :: xs =>
    if x = c then [] :: splitOnChar c xs
    else
      match splitOnChar c xs with
      | p :: ps => (x :: p) :: ps
      | [] => [[x]]

/-- Model of `Vec::join` with a one-char separator. -/
def joinWithChar (c : Char) : List (List Char) → List Char
  | [] => []
  | [p] => p
  | p :: ps => p ++ c :: joinWithChar c ps

theorem splitOnChar_ne_nil (c : Char) (l : List Char) : splitOnChar c l ≠ [] := by
  cases l with
  | nil => simp [splitOnChar]
  | cons x xs =>
    unfold splitOnChar
    by_cases hx : x = c
    · simp [hx]
    · simp only [hx, if_false]
      cases splitOnChar c xs <;> simp

/-- `split` followed by `join` with the same separator is the identity: Rust
    `str::split(' ')` keeps empty segments, so the "collapse spaces" step of
    `canonicalise_wikilink` does not actually collapse anything. -/
theorem joinWithChar_splitOnChar (c : Char) (l : List Char) :
    joinWithChar c (splitOnChar c l) = l := by
  induction l with
  | nil => simp [splitOnChar, joinWithChar]
  | cons x xs ih =>
    unfold splitOnChar
    by_cases hx : x = c
    · subst hx
      simp only [if_pos rfl]
      rcases hsp : splitOnChar x xs with _ | ⟨p, ps⟩
      · exact absurd hsp (splitOnChar_ne_nil x xs)
      · rw [hsp] at ih
        simpa [joinWithChar] using ih
    · simp only [hx, if_false]
      rcases hsp : splitOnChar c xs with _ | ⟨p, ps⟩
      · exact absurd hsp (splitOnChar_ne_nil c xs)
      · rw [hsp] at ih
        cases ps with
        | nil => simpa [joinWithChar] using ih
        | cons q qs => simpa [joinWithChar] using ih

/-- Embedding of `canonicalise_wikilink` (`src/titles.rs:128-178`).
    `none` models a panic of one of the two `unwrap`s: invalid UTF-8 after
    percent-decoding, or an empty decoded remainder. -/
def canonicalise_wikilink (input : List Char) : Option (List Char) :=
  let ns := (namespaceSplitPart input).1
  let input1 := (namespaceSplitPart input).2
  match utf8Decode (percentDecode (utf8Encode input1)) with
  | none => none
  | some decoded =>
    match decodeHtmlEntitiesModel decoded with
    | [] => none
    | c :: _ =>
      let titleCase := uppercaseCharModel c ++ input1.drop 1
      let noUnderscores :=
        joinWithChar ' ' (splitOnChar ' '
          (titleCase.map (fun ch => if ch = '_' then ' ' else ch)))
      some
        (match ns with
         | some n => n ++ ':' :: noUnderscores
         | none => noUnderscores)

theorem namespaceTable_no_underscore :
    ∀ p ∈ namespaceTable, '_' ∉ p.2 := by decide

/-- C5 — counter-evaluation. The spec claims `canon (canon s) = canon s` for
    all `s`. On `"%C3%A9cole"` the code produces `"ÉC3%A9cole"` (the tail is
    taken from the pre-decoded input), and canonicalising that output panics:
    percent-decoding `"%A9"` yields the lone continuation byte `0xA9`, which
    `String::from_utf8(...).unwrap()` rejects. So `canon (canon s)` panics
    while `canon s` is a value: idempotence fails on the code. -/
theorem canonicalise_wikilink_not_idempotent :
    canonicalise_wikilink ("%C3%A9cole".toList) = some ("ÉC3%A9cole".toList) ∧
    canonicalise_wikilink ("ÉC3%A9cole".toList) = none := by
  constructor <;> decide

/-- C6 — counterexample. The claimed mapping
    `canon "%C3%A9cole" = "École"` is false on the code: the uppercased
    first decoded code point is chained with `input.chars().skip(1)` over
    the pre-decoded string, giving `"ÉC3%A9cole"`. -/
theorem canonicalise_wikilink_ecole_differs :
    canonicalise_wikilink ("%C3%A9cole".toList) ≠ some ("École".toList) := by
  decide

/-- C6 — amended mappings: the first two literal mappings of the claim hold as
    stated, and the third maps to `"ÉC3%A9cole"` (not `"École"`), because the
    tail after the uppercased first code point is taken from the pre-decoded
    string. -/
theorem canonicalise_wikilink_literal_mappings :
    canonicalise_wikilink ("help:foo_bar".toList) = some ("Help:Foo bar".toList) ∧
    canonicalise_wikilink ("notanamespace:foo".toList) = some ("Notanamespace:foo".toList) ∧
    canonicalise_wikilink ("%C3%A9cole".toList) = some ("ÉC3%A9cole".toList) := by
  refine ⟨by decide, by decide, by decide⟩

/-- C7 — counterexample. The claim states that runs of spaces are collapsed,
    so no two adjacent spaces survive; but Rust `str::split(' ')` keeps empty
    segments, so `split` + `join` is the identity: `canon "a  b" = "A  b"`,
    which contains two adjacent spaces. -/
theorem canonicalise_wikilink_spaces_not_collapsed :
    canonicalise_wikilink ("a  b".toList) = some ("A  b".toList) ∧
    List.IsInfix [' ', ' '] ("A  b".toList) := by
  constructor
  · decide
  · exact ⟨['A'], ['b'], by decide⟩

/-- C7 — amended. The underscore half of the claim holds: every underscore is
    replaced by a space, so the output of `canonicalise_wikilink` never
    contains `'_'`. (The space-collapsing half is false; runs of spaces are
    preserved, see the counterexample.) -/
theorem canonicalise_wikilink_no_underscore
    (l out : List Char) (h : canonicalise_wikilink l = some out) : '_' ∉ out := by
  simp only [canonicalise_wikilink] at h
  cases hdec : utf8Decode (percentDecode (utf8Encode (namespaceSplitPart l).2)) with
  | none => rw [hdec] at h; simp at h
  | some decoded =>
    simp only [hdec] at h
    cases hent : decodeHtmlEntitiesModel decoded with
    | nil =>
      simp only [hent] at h
      exact Option.noConfusion h
    | cons c rest =>
      simp only [hent, Option.some.injEq] at h
      subst h
      rw [joinWithChar_splitOnChar]
      have hmap : '_' ∉ ((uppercaseCharModel c ++ (namespaceSplitPart l).2.drop 1).map
          (fun ch => if ch = '_' then ' ' else ch)) := by
        intro hmem
        rcases List.mem_map.mp hmem with ⟨ch, -, hch⟩
        by_cases hc : ch = '_'
        · rw [if_pos hc] at hch
          exact absurd hch (by decide)
        · rw [if_neg hc] at hch
          exact hc hch
      cases hns : (namespaceSplitPart l).1 with
      | none => exact hmap
      | some n =>
        intro hmem
        rcases List.mem_append.mp hmem with hn | hcolon
        · have : ∃ p ∈ namespaceTable, p.2 = n := by
            unfold namespaceSplitPart at hns
            cases hsp : splitOnceChar ':' l with
            | none => rw [hsp] at hns; simp at hns
            | some pr =>
              obtain ⟨pre, rest1⟩ := pr
              rw [hsp] at hns
              cases hlk : lookupA namespaceTable ((trimModel pre).map toLowerModel) with
              | none => simp only [hlk] at hns; simp at hns
              | some cn =>
                simp only [hlk, Option.some.injEq] at hns
                exact ⟨(_, cn), lookupA_mem hlk, by rw [hns]⟩
          rcases this with ⟨p, hp, hpn⟩
          exact namespaceTable_no_underscore p hp (hpn ▸ hn)
        · rcases List.mem_cons.mp hcolon with hc | hrest
          · exact absurd hc (by decide)
          · exact hmap hrest

/-- C7 — witness for the amended theorem at the concrete input
    `"help:foo_bar"`. -/
theorem canonicalise_wikilink_no_underscore_witness :
    '_' ∉ ("Help:Foo bar".toList) :=
  canonicalise_wikilink_no_underscore ("help:foo_bar".toList)
    ("Help:Foo bar".toList) (by decide)

/-- C10 — counterexample. The claim says `canonicalise_wikilink` is total,
    the `unwrap`s being unreachable; but on the empty string the decoded
    remainder is empty and `.chars().next().unwrap()` panics. -/
theorem canonicalise_wikilink_empty_panics :
    canonicalise_wikilink ([] : List Char) = none := by decide

/-- C10 — amended. `canonicalise_wikilink` returns a value on exactly the
    inputs where the two `unwrap`s succeed: whenever the percent-decoded
    bytes of the remainder after the namespace split are valid UTF-8 and the
    entity-decoded result is non-empty, the function returns a string. -/
theorem canonicalise_wikilink_total_on_decodable
    (l decoded : List Char)
    (hdec : utf8Decode (percentDecode (utf8Encode (namespaceSplitPart l).2)) = some decoded)
    (hne : decodeHtmlEntitiesModel decoded ≠ []) :
    (canonicalise_wikilink l).isSome := by
  simp only [canonicalise_wikilink]
  rw [hdec]
  cases hent : decodeHtmlEntitiesModel decoded with
  | nil => exact absurd hent hne
  | cons c rest => simp only [hent]; simp

/-- C10 — witness for the amended theorem at the concrete input `"abc"`. -/
theorem canonicalise_wikilink_total_on_decodable_witness :
    (canonicalise_wikilink ("abc".toList)).isSome :=
  canonicalise_wikilink_total_on_decodable ("abc".toList) ("abc".toList)
    (by decide) (by decide)

/-! ## Wikitext link scanning (`src/parse/wikitext.rs`) and the outgoing-link
builder (`src/commands/links.rs`). -/

/-- The characters before the first `"]]"`, models
    `text[start + 2..].find("]]")` plus the slice up to it; `none` if no
    `"]]"` occurs. -/
def charsBeforeDD : List Char → Option (List Char)
  | [] => none
  | [_] => none
  | c1 :: c2 :: rest =>
    if c1 = ']' ∧ c2 = ']' then some []
    else (fun l => c1 :: l) <$> charsBeforeDD (c2 :: rest)

/-- Embedding of `find_links` (`src/parse/wikitext.rs:8-27`): for each
    non-overlapping occurrence of `"[["` (as found by `match_indices`), the
    contents up to the next `"]]"`, split once on `|` into
    `(target, display)`; `"[["` occurrences without a closing `"]]"` are
    dropped. The scan continues right after each `"[["`, so nested
    occurrences inside contents are also reported, as in the Rust. -/
def find_links : List Char → List (List Char × List Char)
  | [] => []
  | [_] => []
  | c1 :: c2 :: rest =>
    if c1 = '[' ∧ c2 = '[' then
      match charsBeforeDD rest with
      | some contents =>
        (match splitOnceChar '|' contents with
         | some (target, display) => (target, display)
         | none => (contents, contents)) :: find_links rest
      | none => find_links rest
    else find_links (c2 :: rest)

/-- Embedding of `Wikilink::target_root` (`src/parse/wikitext.rs:50-55`):
    strip everything from the first `#`, then canonicalise. -/
def target_root (target : List Char) : Option (List Char) :=
  match splitOnceChar '#' target with
  | some (left, _) => canonicalise_wikilink left
  | none => canonicalise_wikilink target

/-- Modelled from the spec: `split_namespace` is referenced by
    `src/commands/links.rs` but missing from `src/`. Per §4.7 it splits a
    canonical title into its namespace (when the part before the first `:`
    is one of the canonical namespace names) and the remainder. -/
def split_namespace (root : List Char) : Option (List Char) × List Char :=
  match splitOnceChar ':' root with
  | some (pre, rest) =>
    if namespaceTable.any (fun pr => pr.2 = pre) then (some pre, rest)
    else (none, root)
  | none => (none, root)

/-- Modelled from the spec: `is_interwiki_link` is referenced by
    `src/commands/links.rs` but missing from `src/`. Per §4.7/§9 it tests
    whether the remainder starts with one of a configured set of interwiki
    prefixes; the prefix set is a parameter here. -/
def is_interwiki_link (iw : List (List Char)) (remainder : List Char) : Bool :=
  iw.any (fun p => List.isPrefixOf p remainder)

/-- The namespace filter of `generate_outgoing_links`
    (`src/commands/links.rs:57-60`): keep the link only if it has no
    namespace or namespace `Category`/`Portal`, and is not an interwiki
    link. -/
def linkPermitted (iw : List (List Char)) (root : List Char) : Bool :=
  (match (split_namespace root).1 with
   | none => true
   | some n => n = "Category".toList ∨ n = "Portal".toList) &&
  !is_interwiki_link iw (split_namespace root).2

/-- `TitleMap::get_id` (`src/titles.rs:100-103`): canonicalise the argument,
    then look it up in the title-to-id map (modelled as an association
    list); `none` from `canonicalise_wikilink` is a panic, propagated by the
    caller. -/
def get_id (titleToId : List (List Char × Nat)) (title : List Char) :
    Option (Option Nat) :=
  match canonicalise_wikilink title with
  | none => none
  | some canonTitle => some (lookupA titleToId canonTitle)

/-- The `filter_map` over `get_id` in `generate_outgoing_links`: unresolved
    ("red") links are dropped, panics propagate (`none`). -/
def resolveAll (titleToId : List (List Char × Nat)) :
    List (List Char) → Option (List Nat)
  | [] => some []
  | r :: rs =>
    match get_id titleToId r with
    | none => none
    | some none => resolveAll titleToId rs
    | some (some id) => (fun t => id :: t) <$> resolveAll titleToId rs

/-- `Itertools::unique`: keep the first occurrence of each element. -/
def dedupFirstAux (seen : List Nat) : List Nat → List Nat
  | [] => []
  | x :: xs =>
    if x ∈ seen then dedupFirstAux seen xs
    else x :: dedupFirstAux (x :: seen) xs

def dedupFirst (l : List Nat) : List Nat := dedupFirstAux [] l

/-- The `mapM` over `target_root` in `generate_outgoing_links`: every link's
    target is canonicalised; a panic anywhere gives `none`. -/
def rootsOf : List (List Char × List Char) → Option (List (List Char))
  | [] => some []
  | (target, _) :: rest =>
    match target_root target with
    | none => none
    | some r => (fun t => r :: t) <$> rootsOf rest

/-- The per-page pipeline of `generate_outgoing_links`
    (`src/commands/links.rs:50-72`): scan the revision text for links, take
    each link's `target_root`, filter by namespace and interwiki prefix,
    resolve through the title map dropping red links, and deduplicate.
    The value stored under the page id is exactly this list. -/
def pageLinks (iw : List (List Char)) (titleToId : List (List Char × Nat))
    (text : List Char) : Option (List Nat) :=
  match rootsOf (find_links text) with
  | none => none
  | some roots =>
    match resolveAll titleToId (roots.filter (linkPermitted iw)) with
    | none => none
    | some ids => some (dedupFirst ids)

theorem dedupFirstAux_nodup (l : List Nat) :
    ∀ seen, (dedupFirstAux seen l).Nodup ∧ ∀ y ∈ dedupFirstAux seen l, y ∉ seen := by
  induction l with
  | nil => intro seen; simp [dedupFirstAux]
  | cons x xs ih =>
    intro seen
    unfold dedupFirstAux
    by_cases hx : x ∈ seen
    · simpa [hx] using ih seen
    · simp only [hx, if_false]
      obtain ⟨hnd, hnotin⟩ := ih (x :: seen)
      refine ⟨List.nodup_cons.mpr ⟨fun hmem => ?_, hnd⟩, ?_⟩
      · exact hnotin x hmem (List.mem_cons_self x seen)
      · intro y hy
        rcases List.mem_cons.mp hy with h1 | h2
        · exact h1 ▸ hx
        · intro hseen
          exact hnotin y h2 (List.mem_cons_of_mem _ hseen)

/-- C8 — counterexample. The claim says the stored outgoing-link list is in
    ascending order; but `generate_outgoing_links` only applies
    `Itertools::unique` (first-occurrence order) and never sorts: a page
    whose text links to id 5 before id 3 stores `[5, 3]`. -/
theorem pageLinks_not_sorted :
    pageLinks [] [("B".toList, 5), ("A".toList, 3)]
      ("see [[B]] and [[A]]".toList) = some [5, 3] ∧
    ¬ List.Sorted (· ≤ ·) ([5, 3] : List Nat) := by
  constructor
  · decide
  · decide

/-- C8 — amended. The stored outgoing-link list contains no duplicate id
    (by `Itertools::unique`); it is in first-occurrence order of the links
    in the page, not necessarily ascending. -/
theorem pageLinks_nodup (iw : List (List Char))
    (titleToId : List (List Char × Nat)) (text : List Char) (l : List Nat)
    (h : pageLinks iw titleToId text = some l) : l.Nodup := by
  unfold pageLinks at h
  cases h1 : rootsOf (find_links text) with
  | none => rw [h1] at h; exact Option.noConfusion h
  | some roots =>
    simp only [h1] at h
    cases h2 : resolveAll titleToId (roots.filter (linkPermitted iw)) with
    | none =>
      simp only [h2] at h
      exact Option.noConfusion h
    | some ids =>
      simp only [h2, Option.some.injEq] at h
      subst h
      exact (dedupFirstAux_nodup ids []).1

/-- C8 — witness for the amended theorem at the concrete page of the
    counterexample. -/
theorem pageLinks_nodup_witness : ([5, 3] : List Nat).Nodup :=
  pageLinks_nodup [] [("B".toList, 5), ("A".toList, 3)]
    ("see [[B]] and [[A]]".toList) [5, 3] (by decide)

/-! ## The partitioned persistent map (`src/hierarchical_map.rs`)

A `HierarchicalMap<K, L, V>` is modelled as a list of partitions
`List (K × List (L × V))`, both levels sorted by strictly ascending keys —
exactly the iteration order of the two nested `BTreeMap`s. `insertSorted`
models `BTreeMap::insert` (ordered insert-or-replace). -/

/-- `BTreeMap::insert` on the sorted association-list view. -/
def insertSorted {α β : Type _} [LinearOrder α] (key : α) (v : β) :
    List (α × β) → List (α × β)
  | [] => [(key, v)]
  | (k0, v0) :: rest =>
    if key < k0 then (key, v) :: (k0, v0) :: rest
    else if key = k0 then (key, v) :: rest
    else (k0, v0) :: insertSorted key v rest

theorem lookupA_insertSorted_same {α β : Type _} [LinearOrder α]
    (l : List (α × β)) (a : α) (b : β) :
    lookupA (insertSorted a b l) a = some b := by
  induction l with
  | nil => simp [insertSorted, lookupA]
  | cons p t ih =>
    obtain ⟨k0, v0⟩ := p
    unfold insertSorted
    by_cases hlt : a < k0
    · simp [hlt, lookupA]
    · by_cases heq : a = k0
      · simp [hlt, heq, lookupA]
      · have hne : k0 ≠ a := fun h => heq h.symm
        simp [hlt, heq, lookupA, hne, ih]

theorem lookupA_insertSorted_other {α β : Type _} [LinearOrder α]
    (l : List (α × β)) (a a' : α) (b : β) (h : a' ≠ a) :
    lookupA (insertSorted a b l) a' = lookupA l a' := by
  induction l with
  | nil => simp [insertSorted, lookupA, Ne.symm h]
  | cons p t ih =>
    obtain ⟨k0, v0⟩ := p
    unfold insertSorted
    by_cases hlt : a < k0
    · simp [hlt, lookupA, Ne.symm h]
    · by_cases heq : a = k0
      · subst heq
        simp [hlt, lookupA, Ne.symm h]
      · simp [hlt, heq, lookupA, ih]

theorem insertSorted_append_big {α β : Type _} [LinearOrder α]
    (l : List (α × β)) (a : α) (b : β) (h : ∀ p ∈ l, p.1 < a) :
    insertSorted a b l = l ++ [(a, b)] := by
  induction l with
  | nil => simp [insertSorted]
  | cons p t ih =>
    obtain ⟨k0, v0⟩ := p
    have hk0 : k0 < a := h (k0, v0) (List.mem_cons_self _ _)
    unfold insertSorted
    have h1 : ¬ a < k0 := not_lt_of_gt hk0
    have h2 : a ≠ k0 := ne_of_gt hk0
    simp only [h1, h2, if_false]
    rw [ih (fun p hp => h p (List.mem_cons_of_mem _ hp))]
    simp

/-- Folding `BTreeMap::insert` over entries with strictly ascending keys,
    starting from a map entirely below them, appends them in order. -/
theorem foldl_insertSorted_asc {α β : Type _} [LinearOrder α] :
    ∀ (l acc : List (α × β)),
    (∀ p ∈ acc, ∀ q ∈ l, p.1 < q.1) →
    List.Pairwise (fun p q : α × β => p.1 < q.1) l →
    List.foldl (fun a p => insertSorted p.1 p.2 a) acc l = acc ++ l := by
  intro l
  induction l with
  | nil => intro acc _ _; simp
  | cons p0 rest ih =>
    intro acc hbelow hpw
    have hins : insertSorted p0.1 p0.2 acc = acc ++ [p0] := by
      rw [insertSorted_append_big acc p0.1 p0.2
        (fun p hp => hbelow p hp p0 (List.mem_cons_self _ _))]
    have hpw' := (List.pairwise_cons.mp hpw).2
    have hhead := (List.pairwise_cons.mp hpw).1
    simp only [List.foldl_cons]
    rw [hins, ih (acc ++ [p0]) ?below hpw']
    · simp
    case below =>
      intro p hp q hq
      rcases List.mem_append.mp hp with h1 | h2
      · exact hbelow p h1 q (List.mem_cons_of_mem _ hq)
      · rcases List.mem_singleton.mp h2 with rfl
        exact hhead q hq

theorem lookupA_sorted_mem {α β : Type _} [LinearOrder α]
    {l : List (α × β)} {a : α} {b : β}
    (hpw : List.Pairwise (fun p q : α × β => p.1 < q.1) l)
    (hmem : (a, b) ∈ l) : lookupA l a = some b := by
  induction l with
  | nil => simp at hmem
  | cons p t ih =>
    obtain ⟨k0, v0⟩ := p
    rcases List.mem_cons.mp hmem with h1 | h2
    · cases h1
      simp [lookupA]
    · have hk0 : k0 < a := by
        have := (List.pairwise_cons.mp hpw).1 (a, b) h2
        simpa using this
      have : k0 ≠ a := ne_of_lt hk0
      simp only [lookupA, this, if_false]
      exact ih (List.pairwise_cons.mp hpw).2 h2

/-- Well-formedness of a `HierarchicalMap` state: both `BTreeMap` levels are
    strictly sorted by key (their iteration order). -/
def WFH {K L V : Type _} [LinearOrder K] [LinearOrder L]
    (m : List (K × List (L × V))) : Prop :=
  List.Pairwise (fun p q : K × List (L × V) => p.1 < q.1) m ∧
  ∀ p ∈ m, List.Pairwise (fun a b : L × V => a.1 < b.1) p.2

/-- The contents of a map as `(short-key, key, value)` triples. -/
def htriples {K L V : Type _} (m : List (K × List (L × V))) : List (K × L × V) :=
  (m.map (fun p => p.2.map (fun q => (p.1, q.1, q.2)))).flatten

/-- `HierarchicalMap::serialize` (`src/hierarchical_map.rs:262-310`): the
    manifest is the list of short keys in `BTreeMap` order, and for each
    short key a file whose lines are the partition's `(L, V)` pairs in
    ascending `L` order — which is exactly the partition list itself. -/
def hserialize {K L V : Type _} (m : List (K × List (L × V))) :
    List K × List (K × List (L × V)) :=
  (m.map Prod.fst, m)

/-- `HierarchicalMap::deserialize(full = true)`
    (`src/hierarchical_map.rs:315-370`) on a fresh empty map: insert an
    empty partition for every manifest short key, then for each partition
    insert every line of its file. -/
def hdeserializeFull {K L V : Type _} [LinearOrder K] [LinearOrder L]
    (manifest : List K) (fileOf : K → List (L × V)) :
    List (K × List (L × V)) :=
  let outer := manifest.foldl
    (fun acc k => insertSorted k ([] : List (L × V)) acc) []
  outer.map (fun p =>
    (p.1, (fileOf p.1).foldl (fun acc q => insertSorted q.1 q.2 acc) p.2))

/-- Structural form of the round trip: on a well-formed fully-loaded map,
    `deserialize(full = true)` of the serialized data rebuilds the map
    exactly. -/
theorem hdeserialize_hserialize {K L V : Type _} [LinearOrder K] [LinearOrder L]
    (m : List (K × List (L × V))) (hwf : WFH m) :
    hdeserializeFull (hserialize m).1
      (fun k => (lookupA (hserialize m).2 k).getD []) = m := by
  obtain ⟨houter, hinner⟩ := hwf
  unfold hdeserializeFull hserialize
  simp only
  rw [List.foldl_map]
  have h1 : List.foldl
        (fun x (y : K × List (L × V)) => insertSorted y.1 ([] : List (L × V)) x) [] m
      = (m.map (fun p => (p.1, ([] : List (L × V))))).foldl
          (fun a p => insertSorted p.1 p.2 a) [] := by
    rw [List.foldl_map]
  have hpw' : List.Pairwise (fun p q : K × List (L × V) => p.1 < q.1)
      (m.map (fun p => (p.1, ([] : List (L × V))))) :=
    List.pairwise_map.mpr houter
  rw [h1, foldl_insertSorted_asc _ [] (by simp) hpw']
  rw [List.nil_append, List.map_map]
  have hpt : ∀ p ∈ m,
      ((fun p : K × List (L × V) =>
          (p.1, List.foldl (fun acc q => insertSorted q.1 q.2 acc) p.2
            ((lookupA m p.1).getD []))) ∘
        (fun p : K × List (L × V) => (p.1, ([] : List (L × V))))) p = id p := by
    intro p hp
    obtain ⟨k, part⟩ := p
    have hl : lookupA m k = some part := lookupA_sorted_mem houter hp
    simp only [Function.comp_apply, hl, Option.getD_some, id_eq]
    rw [foldl_insertSorted_asc part [] (by simp) (hinner (k, part) hp)]
    simp
  rw [List.map_congr_left hpt, List.map_id]

/-- C3 — For every fully loaded, well-formed `HierarchicalMap`, serialising
    and then deserialising (`full = true`) into a fresh empty map with the
    same prefix and shorten function yields a map whose contents equal the
    original's as a multiset of `(short-key, key, value)` triples.
    (`deserialize` re-creates the partitions from the manifest, so the
    shorten function plays no role on this path, as in the Rust.) -/
theorem hierarchical_map_roundtrip {K L V : Type _} [LinearOrder K] [LinearOrder L]
    (m : List (K × List (L × V))) (hwf : WFH m) :
    (htriples (hdeserializeFull (hserialize m).1
        (fun k => (lookupA (hserialize m).2 k).getD [])) : Multiset (K × L × V)) =
      (htriples m : Multiset (K × L × V)) := by
  rw [hdeserialize_hserialize m hwf]

/-- C3 — witness: the round trip at the concrete map
    `{0 ↦ {2 ↦ 10, 4 ↦ 12}, 1 ↦ {3 ↦ 11}}`. -/
theorem hierarchical_map_roundtrip_witness :
    (htriples (hdeserializeFull
        (hserialize [((0 : Nat), [((2 : Nat), (10 : Nat)), (4, 12)]), (1, [(3, 11)])]).1
        (fun k => (lookupA (hserialize
          [((0 : Nat), [((2 : Nat), (10 : Nat)), (4, 12)]), (1, [(3, 11)])]).2 k).getD []))
      : Multiset (Nat × Nat × Nat)) =
    (htriples [((0 : Nat), [((2 : Nat), (10 : Nat)), (4, 12)]), (1, [(3, 11)])]
      : Multiset (Nat × Nat × Nat)) :=
  hierarchical_map_roundtrip [(0, [(2, 10), (4, 12)]), (1, [(3, 11)])]
    ⟨by decide, by decide⟩

/-! ## The incoming-link builder (`src/commands/links.rs:92-112`) and
adjacency symmetry (C9). -/

/-- `id_short_key` (`src/titles.rs:65-67`): the low 8 bits of the id. -/
def id_short_key (id : Nat) : Nat := id % 256

/-- `HierarchicalMap::with` on a fully loaded map keyed by `id_short_key`:
    find the partition of the key's short key, then the key
    (`src/hierarchical_map.rs:187-201`; the disk fallback is not taken on a
    fully loaded map). -/
def hlookupN (m : List (Nat × List (Nat × List Nat))) (l : Nat) : Option (List Nat) :=
  match lookupA m (id_short_key l) with
  | none => none
  | some part => lookupA part l

/-- `HierarchicalMap::mutate_with_default` specialised to
    `|list| list.push(src)` as used by `generate_incoming_links`
    (`src/hierarchical_map.rs:157-182`, `src/commands/links.rs:104`):
    create the partition if missing, then push onto the (possibly default
    empty) list under `key`. -/
def hmutatePush (m : List (Nat × List (Nat × List Nat))) (key src : Nat) :
    List (Nat × List (Nat × List Nat)) :=
  match lookupA m (id_short_key key) with
  | some part =>
    insertSorted (id_short_key key)
      (insertSorted key (((lookupA part key).getD []) ++ [src]) part) m
  | none => insertSorted (id_short_key key) [(key, [src])] m

/-- The `(L, V)` pairs of all partitions, in iteration order — what
    `with_all` streams. -/
def hentriesPairs {K L V : Type _} (m : List (K × List (L × V))) : List (L × V) :=
  (m.map Prod.snd).flatten

/-- `generate_incoming_links` (`src/commands/links.rs:92-112`): walk every
    `(src, links)` pair of the outgoing map and push `src` onto
    `incoming[dst]` for every `dst ∈ links`, starting from an empty map. -/
def buildIncoming (entries : List (Nat × List Nat)) :
    List (Nat × List (Nat × List Nat)) :=
  entries.foldl
    (fun acc pr => pr.2.foldl (fun acc2 dst => hmutatePush acc2 dst pr.1) acc) []

theorem hlookupN_hmutatePush_same (m : List (Nat × List (Nat × List Nat)))
    (key src : Nat) :
    hlookupN (hmutatePush m key src) key =
      some ((hlookupN m key).getD [] ++ [src]) := by
  unfold hmutatePush hlookupN
  cases hp : lookupA m (id_short_key key) with
  | some part =>
    simp only [hp, lookupA_insertSorted_same]
  | none =>
    simp only [hp, lookupA_insertSorted_same]
    simp [lookupA]

theorem hlookupN_hmutatePush_other (m : List (Nat × List (Nat × List Nat)))
    (key src key' : Nat) (h : key' ≠ key) :
    hlookupN (hmutatePush m key src) key' = hlookupN m key' := by
  unfold hmutatePush hlookupN
  by_cases hsk : id_short_key key' = id_short_key key
  · cases hp : lookupA m (id_short_key key) with
    | some part =>
      rw [hsk, lookupA_insertSorted_same, hp]
      exact lookupA_insertSorted_other part key key' _ h
    | none =>
      rw [hsk, lookupA_insertSorted_same, hp]
      simp [lookupA, Ne.symm h]
  · cases hp : lookupA m (id_short_key key) with
    | some part => rw [lookupA_insertSorted_other _ _ _ _ hsk]
    | none => rw [lookupA_insertSorted_other _ _ _ _ hsk]

theorem buildIncoming_inner_mem (src : Nat) :
    ∀ (links : List Nat) (acc : List (Nat × List (Nat × List Nat))) (y x : Nat),
    (x ∈ (hlookupN (links.foldl (fun a d => hmutatePush a d src) acc) y).getD []) ↔
      (x ∈ (hlookupN acc y).getD [] ∨ (x = src ∧ y ∈ links)) := by
  intro links
  induction links with
  | nil => intro acc y x; simp
  | cons d ds ih =>
    intro acc y x
    simp only [List.foldl_cons]
    rw [ih (hmutatePush acc d src) y x]
    by_cases hy : y = d
    · subst hy
      rw [hlookupN_hmutatePush_same]
      simp only [Option.getD_some, List.mem_append, List.mem_singleton]
      constructor
      · rintro (⟨h1 | h2⟩ | ⟨h3, h4⟩)
        · exact Or.inl h1
        · exact Or.inr ⟨h2, List.mem_cons_self _ _⟩
        · exact Or.inr ⟨h3, List.mem_cons_of_mem _ h4⟩
      · rintro (h1 | ⟨h2, -⟩)
        · exact Or.inl (Or.inl h1)
        · exact Or.inl (Or.inr h2)
    · rw [hlookupN_hmutatePush_other _ _ _ _ hy]
      constructor
      · rintro (h1 | ⟨h2, h3⟩)
        · exact Or.inl h1
        · exact Or.inr ⟨h2, List.mem_cons_of_mem _ h3⟩
      · rintro (h1 | ⟨h2, h3⟩)
        · exact Or.inl h1
        · rcases List.mem_cons.mp h3 with h4 | h5
          · exact absurd h4 hy
          · exact Or.inr ⟨h2, h5⟩

theorem buildIncoming_mem_aux :
    ∀ (entries : List (Nat × List Nat)) (acc : List (Nat × List (Nat × List Nat)))
      (y x : Nat),
    (x ∈ (hlookupN (entries.foldl
        (fun acc pr => pr.2.foldl (fun acc2 dst => hmutatePush acc2 dst pr.1) acc)
        acc) y).getD []) ↔
      (x ∈ (hlookupN acc y).getD [] ∨ ∃ pr ∈ entries, pr.1 = x ∧ y ∈ pr.2) := by
  intro entries
  induction entries with
  | nil => intro acc y x; simp
  | cons e es ih =>
    intro acc y x
    simp only [List.foldl_cons]
    rw [ih]
    rw [buildIncoming_inner_mem e.1 e.2 acc y x]
    constructor
    · rintro ((h1 | ⟨h2, h3⟩) | ⟨pr, hpr, h4, h5⟩)
      · exact Or.inl h1
      · exact Or.inr ⟨e, List.mem_cons_self _ _, h2.symm, h3⟩
      · exact Or.inr ⟨pr, List.mem_cons_of_mem _ hpr, h4, h5⟩
    · rintro (h1 | ⟨pr, hpr, h4, h5⟩)
      · exact Or.inl (Or.inl h1)
      · rcases List.mem_cons.mp hpr with h6 | h7
        · subst h6
          exact Or.inl (Or.inr ⟨h4.symm, h5⟩)
        · exact Or.inr ⟨pr, h7, h4, h5⟩

theorem buildIncoming_mem (entries : List (Nat × List Nat)) (y x : Nat) :
    (x ∈ (hlookupN (buildIncoming entries) y).getD []) ↔
      ∃ pr ∈ entries, pr.1 = x ∧ y ∈ pr.2 := by
  unfold buildIncoming
  rw [buildIncoming_mem_aux]
  simp [hlookupN, lookupA]

/-- Shorten-consistency of a map keyed by `id_short_key`: every stored key
    lives in the partition of its short key (guaranteed by construction,
    since `insert` uses `shorten`). -/
def shortKeyConsistent (m : List (Nat × List (Nat × List Nat))) : Prop :=
  ∀ p ∈ m, ∀ q ∈ p.2, id_short_key q.1 = p.1

theorem hlookupN_to_entry {out : List (Nat × List (Nat × List Nat))}
    {x y : Nat} (h : y ∈ (hlookupN out x).getD []) :
    ∃ pr ∈ hentriesPairs out, pr.1 = x ∧ y ∈ pr.2 := by
  unfold hlookupN at h
  cases hp : lookupA out (id_short_key x) with
  | none => rw [hp] at h; simp at h
  | some part =>
    simp only [hp] at h
    cases hq : lookupA part x with
    | none => rw [hq] at h; simp at h
    | some ls =>
      rw [hq] at h
      simp only [Option.getD_some] at h
      refine ⟨(x, ls), ?_, rfl, h⟩
      unfold hentriesPairs
      rw [List.mem_flatten]
      exact ⟨part, List.mem_map.mpr ⟨_, lookupA_mem hp, rfl⟩, lookupA_mem hq⟩

theorem entry_to_hlookupN {out : List (Nat × List (Nat × List Nat))}
    (hwf : WFH out) (hcons : shortKeyConsistent out)
    {x y : Nat} {pr : Nat × List Nat}
    (hmem : pr ∈ hentriesPairs out) (hx : pr.1 = x) (hy : y ∈ pr.2) :
    y ∈ (hlookupN out x).getD [] := by
  obtain ⟨houter, hinner⟩ := hwf
  unfold hentriesPairs at hmem
  rw [List.mem_flatten] at hmem
  obtain ⟨lp, hlp, hprlp⟩ := hmem
  rcases List.mem_map.mp hlp with ⟨q, hq, rfl⟩
  have hsk : id_short_key pr.1 = q.1 := hcons q hq pr hprlp
  have houtlook : lookupA out (id_short_key x) = some q.2 := by
    rw [← hx, hsk]
    exact lookupA_sorted_mem houter (by simpa using hq)
  have hinlook : lookupA q.2 x = some pr.2 := by
    rw [← hx]
    exact lookupA_sorted_mem (hinner q hq) (by simpa using hprlp)
  unfold hlookupN
  rw [houtlook]
  simp only [hinlook]
  simpa using hy

/-- C9 — After the incoming-links map is built from a fully loaded
    (well-formed, shorten-consistent) outgoing-links map, the two adjacency
    maps are symmetric: `y ∈ outgoing[x] ↔ x ∈ incoming[y]`.
    (`outgoing[x]`/`incoming[y]` denote the stored list, empty when the key
    is absent.) -/
theorem incoming_outgoing_symmetric (out : List (Nat × List (Nat × List Nat)))
    (hwf : WFH out) (hcons : shortKeyConsistent out) (x y : Nat) :
    y ∈ (hlookupN out x).getD [] ↔
      x ∈ (hlookupN (buildIncoming (hentriesPairs out)) y).getD [] := by
  rw [buildIncoming_mem]
  constructor
  · intro h
    obtain ⟨pr, hpr, hx, hy⟩ := hlookupN_to_entry h
    exact ⟨pr, hpr, hx, hy⟩
  · rintro ⟨pr, hpr, hx, hy⟩
    exact entry_to_hlookupN hwf hcons hpr hx hy

/-- C9 — witness at the concrete outgoing map
    `{1 ↦ {1 ↦ [2]}, 2 ↦ {2 ↦ [1]}}` (edges 1 → 2 and 2 → 1). -/
theorem incoming_outgoing_symmetric_witness :
    (2 : Nat) ∈ (hlookupN [(1, [(1, [2])]), (2, [(2, [1])])] 1).getD [] ↔
      (1 : Nat) ∈ (hlookupN (buildIncoming
        (hentriesPairs [(1, [(1, [2])]), (2, [(2, [1])])])) 2).getD [] :=
  incoming_outgoing_symmetric [(1, [(1, [2])]), (2, [(2, [1])])]
    ⟨by decide, by decide⟩ (by unfold shortKeyConsistent; decide) 1 2

/-! ## Sorted-line binary search (`src/binary_search_line.rs`)

The file is a list of bytes (modelled as `List Char`, one element per byte;
`'\n'` is the line separator). `next_line_starting_at` seeks to a byte
offset, discards the partial line when the offset is positive, and returns
the next complete line (empty at end of file). The search loop keeps a
byte-offset window `[guess_min, guess_max]`; `u64` subtraction here is
saturating/truncated exactly like `Nat` subtraction. -/

/-- `BufRead::read_until(b'\n')`: the consumed bytes (separator included)
    and the remainder. -/
def readUntilNl : List Char → List Char × List Char
  | [] => ([], [])
  | c :: cs =>
    if c = '\n' then ([c], cs)
    else
      match readUntilNl cs with
      | (a, b) => (c :: a, b)

/-- Embedding of `next_line_starting_at` (`src/binary_search_line.rs:7-22`). -/
def nextLineStartingAt (file : List Char) (start : Nat) : List Char :=
  (readUntilNl (if 0 < start then (readUntilNl (file.drop start)).2
                else file.drop start)).1

/-- The loop of `binary_search_line_in_file`
    (`src/binary_search_line.rs:36-77`), with explicit fuel (`none` = has
    not returned; the Rust loop can diverge, e.g. on the empty file).
    `some none` models `Ok(None)`, `some (some l)` models `Ok(Some(l))`. -/
def searchLoop {K : Type _} [LinearOrder K] (get_key : List Char → K) (q : K)
    (file : List Char) : Nat → Nat → Nat → Option (Option (List Char))
  | 0, _, _ => none
  | fuel + 1, gmin, gmax =>
    if gmax - gmin ≤ 2 then
      if nextLineStartingAt file gmin = [] then
        searchLoop get_key q file fuel gmin (gmax - 2)
      else if q < get_key (nextLineStartingAt file gmin) then some none
      else if get_key (nextLineStartingAt file gmin) < q then some none
      else some (some (nextLineStartingAt file gmin))
    else
      if nextLineStartingAt file ((gmin + gmax) / 2) = [] then
        searchLoop get_key q file fuel gmin (gmax - 2)
      else if q < get_key (nextLineStartingAt file ((gmin + gmax) / 2)) then
        searchLoop get_key q file fuel gmin ((gmin + gmax) / 2)
      else if get_key (nextLineStartingAt file ((gmin + gmax) / 2)) < q then
        searchLoop get_key q file fuel ((gmin + gmax) / 2) gmax
      else some (some (nextLineStartingAt file ((gmin + gmax) / 2)))

/-- Embedding of `binary_search_line_in_file`
    (`src/binary_search_line.rs:29-78`). -/
def binary_search_line_in_file {K : Type _} [LinearOrder K] (file : List Char)
    (get_key : List Char → K) (q : K) (fuel : Nat) :
    Option (Option (List Char)) :=
  searchLoop get_key q file fuel 0 file.length

/-- Fuel-indexed splitting of the file into its lines (trailing separator
    kept; the fuel is only to keep the recursion structural and the wrapper
    always supplies enough). -/
def fileLinesAux : Nat → List Char → List (List Char)
  | _, [] => []
  | 0, _ :: _ => []
  | fuel + 1, f => (readUntilNl f).1 :: fileLinesAux fuel (readUntilNl f).2

/-- The lines of a file, separators included (the last line may lack one). -/
def fileLines (f : List Char) : List (List Char) := fileLinesAux f.length f

/-- The leading-integer key extractor of the spec's scenario. -/
def leadingNat (l : List Char) : Nat :=
  (l.takeWhile Char.isDigit).foldl (fun a c => 10 * a + (c.toNat - 48)) 0

/-- What a probe at offset `p ≥ 1` reads, expressed over the line list:
    skip into the line containing `p`, and return the following line when
    the current one is `'\n'`-terminated, the empty read otherwise. -/
def probeSpec : List (List Char) → Nat → List Char
  | [], _ => []
  | l :: ls, p =>
    if p < l.length then
      (if l.getLast? = some '\n' then ls.headD [] else [])
    else probeSpec ls (p - l.length)

/-- Well-formedness of a line decomposition: lines are nonempty, contain
    `'\n'` at most as their last byte, and all but the last end with it. -/
def linesWF : List (List Char) → Prop
  | [] => True
  | [l] => l ≠ [] ∧ '\n' ∉ l.dropLast
  | l :: l2 :: ls =>
    l ≠ [] ∧ '\n' ∉ l.dropLast ∧ l.getLast? = some '\n' ∧ linesWF (l2 :: ls)

theorem readUntilNl_cases (l : List Char) :
    (∃ w b, l = w ++ '\n' :: b ∧ '\n' ∉ w ∧ readUntilNl l = (w ++ ['\n'], b)) ∨
    ('\n' ∉ l ∧ readUntilNl l = (l, [])) := by
  induction l with
  | nil => exact Or.inr (by simp [readUntilNl])
  | cons c cs ih =>
    by_cases hc : c = '\n'
    · subst hc
      exact Or.inl ⟨[], cs, by simp, by simp, by simp [readUntilNl]⟩
    · rcases ih with ⟨w, b, hl, hw, hr⟩ | ⟨hnl, hr⟩
      · refine Or.inl ⟨c :: w, b, by rw [hl]; simp, ?_, ?_⟩
        · intro hmem
          rcases List.mem_cons.mp hmem with h1 | h2
          · exact hc h1.symm
          · exact hw h2
        · simp only [readUntilNl, hc, if_false]
          rw [hr]
          simp
      · refine Or.inr ⟨?_, ?_⟩
        · intro hmem
          rcases List.mem_cons.mp hmem with h1 | h2
          · exact hc h1.symm
          · exact hnl h2
        · simp only [readUntilNl, hc, if_false]
          rw [hr]

theorem readUntilNl_append (l : List Char) :
    (readUntilNl l).1 ++ (readUntilNl l).2 = l := by
  rcases readUntilNl_cases l with ⟨w, b, hl, -, hr⟩ | ⟨-, hr⟩
  · rw [hr, hl]; simp
  · rw [hr]; simp

theorem readUntilNl_fst_ne_nil {l : List Char} (h : l ≠ []) :
    (readUntilNl l).1 ≠ [] := by
  rcases readUntilNl_cases l with ⟨w, b, hl, -, hr⟩ | ⟨-, hr⟩
  · rw [hr]; simp
  · rw [hr]; exact h

theorem readUntilNl_snd_length {l : List Char} (h : l ≠ []) :
    (readUntilNl l).2.length < l.length := by
  have := readUntilNl_append l
  have h1 := readUntilNl_fst_ne_nil h
  have h2 : (readUntilNl l).1.length + (readUntilNl l).2.length = l.length := by
    rw [← List.length_append, this]
  have h3 : 0 < (readUntilNl l).1.length := List.length_pos.mpr h1
  omega

theorem readUntilNl_after_nl {w b : List Char} (hw : '\n' ∉ w) :
    readUntilNl (w ++ '\n' :: b) = (w ++ ['\n'], b) := by
  induction w with
  | nil => simp [readUntilNl]
  | cons c cs ih =>
    have hc : c ≠ '\n' := fun h => hw (h ▸ List.mem_cons_self c cs)
    have hcs : '\n' ∉ cs := fun h => hw (List.mem_cons_of_mem _ h)
    simp only [List.cons_append, readUntilNl, hc, if_false]
    simp only [List.append_eq]
    rw [ih hcs]

theorem readUntilNl_no_nl {l : List Char} (h : '\n' ∉ l) :
    readUntilNl l = (l, []) := by
  rcases readUntilNl_cases l with ⟨w, b, hl, -, -⟩ | ⟨-, hr⟩
  · exact absurd (by rw [hl]; simp : '\n' ∈ l) h
  · exact hr

theorem fileLinesAux_flatten :
    ∀ (fuel : Nat) (f : List Char), f.length ≤ fuel →
    (fileLinesAux fuel f).flatten = f := by
  intro fuel
  induction fuel with
  | zero =>
    intro f hf
    cases f with
    | nil => simp [fileLinesAux]
    | cons c cs => simp at hf
  | succ n ih =>
    intro f hf
    cases f with
    | nil => simp [fileLinesAux]
    | cons c cs =>
      simp only [fileLinesAux, List.flatten_cons]
      rw [ih _ ?hlen, readUntilNl_append]
      case hlen =>
        have := readUntilNl_snd_length (List.cons_ne_nil c cs)
        simp only [List.length_cons] at hf this
        omega

theorem fileLinesAux_wf :
    ∀ (fuel : Nat) (f : List Char), f.length ≤ fuel →
    linesWF (fileLinesAux fuel f) := by
  intro fuel
  induction fuel with
  | zero =>
    intro f hf
    cases f with
    | nil => simp [fileLinesAux, linesWF]
    | cons c cs => simp at hf
  | succ n ih =>
    intro f hf
    cases f with
    | nil => simp [fileLinesAux, linesWF]
    | cons c cs =>
      simp only [fileLinesAux]
      have hlen : (readUntilNl (c :: cs)).2.length ≤ n := by
        have := readUntilNl_snd_length (List.cons_ne_nil c cs)
        simp only [List.length_cons] at hf this
        omega
      have hfst : (readUntilNl (c :: cs)).1 ≠ [] :=
        readUntilNl_fst_ne_nil (List.cons_ne_nil c cs)
      have hdl : '\n' ∉ (readUntilNl (c :: cs)).1.dropLast := by
        rcases readUntilNl_cases (c :: cs) with ⟨w, b, -, hw, hr⟩ | ⟨hnl, hr⟩
        · rw [hr]
          simpa using hw
        · rw [hr]
          intro hmem
          exact hnl (List.dropLast_subset _ hmem)
      have hrec := ih _ hlen
      cases htail : fileLinesAux n (readUntilNl (c :: cs)).2 with
      | nil => exact ⟨hfst, hdl⟩
      | cons l2 ls =>
        rw [htail] at hrec
        refine ⟨hfst, hdl, ?_, hrec⟩
        -- the tail is nonempty, so the remainder was nonempty, so the first
        -- chunk ended at a newline
        rcases readUntilNl_cases (c :: cs) with ⟨w, b, -, hw, hr⟩ | ⟨hnl, hr⟩
        · rw [hr]
          simp
        · exfalso
          rw [hr] at htail
          simp [fileLinesAux] at htail

theorem fileLines_flatten (f : List Char) : (fileLines f).flatten = f :=
  fileLinesAux_flatten f.length f (le_refl _)

theorem fileLines_wf (f : List Char) : linesWF (fileLines f) :=
  fileLinesAux_wf f.length f (le_refl _)

theorem fileLines_cons {f : List Char} (h : f ≠ []) :
    ∃ t, fileLines f = (readUntilNl f).1 :: t := by
  cases f with
  | nil => exact absurd rfl h
  | cons c cs => exact ⟨_, rfl⟩

theorem linesWF_head_ne_nil {l : List Char} {ls : List (List Char)}
    (h : linesWF (l :: ls)) : l ≠ [] := by
  cases ls with
  | nil => exact h.1
  | cons l2 ls2 => exact h.1

theorem linesWF_head_dropLast {l : List Char} {ls : List (List Char)}
    (h : linesWF (l :: ls)) : '\n' ∉ l.dropLast := by
  cases ls with
  | nil => exact h.2
  | cons l2 ls2 => exact h.2.1

theorem linesWF_head_last {l l2 : List Char} {ls : List (List Char)}
    (h : linesWF (l :: l2 :: ls)) : l.getLast? = some '\n' := h.2.2.1

theorem linesWF_tail {l : List Char} {ls : List (List Char)}
    (h : linesWF (l :: ls)) : linesWF ls := by
  cases ls with
  | nil => trivial
  | cons l2 ls2 => exact h.2.2.2

theorem dropAppendLe {α : Type _} :
    ∀ (a b : List α) (n : Nat), n ≤ a.length → (a ++ b).drop n = a.drop n ++ b := by
  intro a
  induction a with
  | nil =>
    intro b n hn
    simp at hn
    subst hn
    simp
  | cons x xs ih =>
    intro b n hn
    cases n with
    | zero => simp
    | succ m =>
      simp only [List.cons_append, List.drop_succ_cons]
      exact ih b m (by simpa using hn)

theorem dropAppendGe {α : Type _} :
    ∀ (a b : List α) (n : Nat), a.length ≤ n → (a ++ b).drop n = b.drop (n - a.length) := by
  intro a
  induction a with
  | nil => intro b n _; simp
  | cons x xs ih =>
    intro b n hn
    cases n with
    | zero => simp at hn
    | succ m =>
      simp only [List.cons_append, List.drop_succ_cons, List.length_cons]
      rw [ih b m (by simpa using hn)]
      simp

/-- The first complete line of a well-formed flattened line list is its
    first line. -/
theorem firstLine_flatten {ls : List (List Char)} (h : linesWF ls) :
    (readUntilNl ls.flatten).1 = ls.headD [] := by
  cases ls with
  | nil => simp [readUntilNl]
  | cons l ls' =>
    cases ls' with
    | nil =>
      simp only [List.flatten_cons, List.flatten_nil, List.append_nil, List.headD_cons]
      rcases readUntilNl_cases l with ⟨w, b, hl, hw, hr⟩ | ⟨-, hr⟩
      · rw [hr]
        -- '\n' occurs only as the last byte, so b = []
        cases b with
        | nil => rw [hl]
        | cons x bs =>
          exfalso
          apply linesWF_head_dropLast h
          rw [hl]
          rw [List.dropLast_append_of_ne_nil _ (List.cons_ne_nil _ _)]
          simp
      · rw [hr]
    | cons l2 ls2 =>
      have hlast := linesWF_head_last h
      have hdecomp : l.dropLast ++ ['\n'] = l :=
        List.dropLast_append_getLast? '\n' (Option.mem_def.mpr hlast)
      have : l :: l2 :: ls2 = (l.dropLast ++ ['\n']) :: l2 :: ls2 := by rw [hdecomp]
      rw [List.flatten_cons, ← hdecomp]
      rw [List.append_assoc]
      simp only [List.singleton_append]
      rw [readUntilNl_after_nl (linesWF_head_dropLast h)]
      simp [hdecomp]

/-- Core probe characterisation: skipping the partial line at offset `p` in
    the flattened well-formed line list and reading one line gives
    `probeSpec`. -/
theorem probe_flatten :
    ∀ (ls : List (List Char)), linesWF ls → ∀ (p : Nat),
    (readUntilNl (readUntilNl (ls.flatten.drop p)).2).1 = probeSpec ls p := by
  intro ls
  induction ls with
  | nil =>
    intro _ p
    simp [readUntilNl, probeSpec]
  | cons l ls' ih =>
    intro hwf p
    by_cases hp : p < l.length
    · -- the probe lands inside the first line
      rw [List.flatten_cons, dropAppendLe _ _ _ (le_of_lt hp)]
      simp only [probeSpec, hp, if_pos]
      cases hlast : l.getLast? with
      | some c =>
        by_cases hc : c = '\n'
        · -- the first line is newline-terminated: skipping lands exactly at
          -- the start of the next line
          subst hc
          have hdecomp : l.dropLast ++ ['\n'] = l :=
            List.dropLast_append_getLast? '\n' (Option.mem_def.mpr hlast)
          have hdrop : l.drop p = l.dropLast.drop p ++ ['\n'] := by
            conv_lhs => rw [← hdecomp]
            rw [dropAppendLe]
            have := congrArg List.length hdecomp
            simp only [List.length_append, List.length_singleton] at this
            omega
          rw [hdrop, List.append_assoc]
          simp only [List.singleton_append]
          rw [readUntilNl_after_nl ?notin]
          case notin =>
            intro hmem
            exact linesWF_head_dropLast hwf (List.drop_subset _ _ hmem)
          simp only [if_pos rfl]
          exact firstLine_flatten (linesWF_tail hwf)
        · -- only possible for the last line: nothing follows, the read is
          -- empty
          have hlsnil : ls' = [] := by
            cases ls' with
            | nil => rfl
            | cons l2 ls2 =>
              exact absurd (linesWF_head_last hwf) (by rw [hlast]; simp [hc])
          subst hlsnil
          have hnotin : '\n' ∉ l.drop p := by
            intro hmem
            have hfull : '\n' ∈ l := List.drop_subset _ _ hmem
            rcases (List.mem_iff_append).mp hfull with ⟨s, t, rfl⟩
            -- '\n' is in dropLast unless it is the final byte
            rcases List.eq_nil_or_concat t with rfl | ⟨t0, x, rfl⟩
            · exact hc (Eq.symm (by simpa using hlast))
            · apply linesWF_head_dropLast hwf
              rw [show s ++ '\n' :: t0.concat x = (s ++ '\n' :: t0) ++ [x] by
                simp [List.concat_eq_append]]
              rw [List.dropLast_concat]
              simp
          simp only [List.flatten_nil, List.append_nil]
          rw [readUntilNl_no_nl hnotin]
          simp [readUntilNl, hc]
      | none =>
        exfalso
        exact linesWF_head_ne_nil hwf (List.getLast?_eq_none_iff.mp hlast)
    · -- the probe lands past the first line: recurse
      rw [List.flatten_cons, dropAppendGe _ _ _ (le_of_not_lt hp)]
      simp only [probeSpec, hp, if_neg, if_false]
      exact ih (linesWF_tail hwf) (p - l.length)

theorem probeSpec_mem :
    ∀ (ls : List (List Char)) (p : Nat), probeSpec ls p ≠ [] → probeSpec ls p ∈ ls := by
  intro ls
  induction ls with
  | nil => intro p h; simp [probeSpec] at h
  | cons l ls' ih =>
    intro p h
    unfold probeSpec at h ⊢
    by_cases hp : p < l.length
    · simp only [hp, if_pos] at h ⊢
      cases hlast : l.getLast? with
      | none => simp_all
      | some c =>
        by_cases hc : c = '\n'
        · subst hc
          simp_all only [if_pos rfl]
          cases ls' with
          | nil => simp at h
          | cons l2 ls2 => simp
        · simp_all [hc]
    · simp only [hp, if_neg, if_false] at h ⊢
      exact List.mem_cons_of_mem _ (ih _ h)

/-- Probes at positive offsets follow `probeSpec` over the file's lines. -/
theorem nextLine_pos (f : List Char) (p : Nat) (hp : 0 < p) :
    nextLineStartingAt f p = probeSpec (fileLines f) p := by
  unfold nextLineStartingAt
  rw [if_pos hp]
  have := probe_flatten (fileLines f) (fileLines_wf f) p
  rw [fileLines_flatten] at this
  exact this

/-- The probe at offset 0 reads the first line. -/
theorem nextLine_zero (f : List Char) :
    nextLineStartingAt f 0 = (readUntilNl f).1 := by
  unfold nextLineStartingAt
  simp

/-- A nonempty probe always reads an actual line of the file. -/
theorem nextLine_mem {f : List Char} {p : Nat}
    (h : nextLineStartingAt f p ≠ []) : nextLineStartingAt f p ∈ fileLines f := by
  rcases Nat.eq_zero_or_pos p with rfl | hp
  · rw [nextLine_zero] at h ⊢
    have hf : f ≠ [] := by
      intro hnil
      subst hnil
      exact h (by simp [readUntilNl])
    obtain ⟨t, ht⟩ := fileLines_cons hf
    rw [ht]
    exact List.mem_cons_self _ _
  · rw [nextLine_pos f p hp] at h ⊢
    exact probeSpec_mem _ _ h

/-- One returning step of the loop when the window is collapsed and the
    probe at `guess_min` reads a line. -/
theorem searchLoop_oneOption {K : Type _} [LinearOrder K] (gk : List Char → K)
    (q : K) (file : List Char) (gmin gmax fuel : Nat)
    (hone : gmax - gmin ≤ 2) (hprobe : nextLineStartingAt file gmin ≠ []) :
    ∃ r, searchLoop gk q file (fuel + 1) gmin gmax = some r ∧
      ∀ l, r = some l → l = nextLineStartingAt file gmin ∧ gk l = q := by
  rcases lt_trichotomy q (gk (nextLineStartingAt file gmin)) with hlt | heq | hgt
  · refine ⟨none, ?_, by simp⟩
    simp only [searchLoop]
    rw [if_pos hone, if_neg hprobe, if_pos hlt]
  · refine ⟨some (nextLineStartingAt file gmin), ?_, ?_⟩
    · have h1 : ¬ q < gk (nextLineStartingAt file gmin) := by
        rw [heq]; exact lt_irrefl _
      have h2 : ¬ gk (nextLineStartingAt file gmin) < q := by
        rw [heq]; exact lt_irrefl _
      simp only [searchLoop]
      rw [if_pos hone, if_neg hprobe, if_neg h1, if_neg h2]
    · intro l hl
      injection hl with h
      subst h
      exact ⟨rfl, heq.symm⟩
  · refine ⟨none, ?_, by simp⟩
    have h1 : ¬ q < gk (nextLineStartingAt file gmin) := not_lt_of_gt hgt
    simp only [searchLoop]
    rw [if_pos hone, if_neg hprobe, if_neg h1, if_pos hgt]

/-- Termination and soundness of the search loop on a nonempty file: from
    any reachable window the loop returns, and a returned line is an actual
    line of the file whose key is the query. -/
theorem searchLoop_term_sound {K : Type _} [LinearOrder K] (gk : List Char → K)
    (q : K) (file : List Char) (hfile : file ≠ []) :
    ∀ (bound gmin gmax : Nat), gmax - gmin ≤ bound →
    (gmin = 0 ∨ nextLineStartingAt file gmin ≠ []) →
    ∃ fuel r, searchLoop gk q file fuel gmin gmax = some r ∧
      (∀ l, r = some l → l ∈ fileLines file ∧ gk l = q) := by
  intro bound
  induction bound with
  | zero =>
    intro gmin gmax hdiff hinv
    have hone : gmax - gmin ≤ 2 := by omega
    have hprobe : nextLineStartingAt file gmin ≠ [] := by
      rcases hinv with rfl | h
      · rw [nextLine_zero]
        exact readUntilNl_fst_ne_nil hfile
      · exact h
    obtain ⟨r, hr, hs⟩ := searchLoop_oneOption gk q file gmin gmax 0 hone hprobe
    refine ⟨1, r, hr, ?_⟩
    intro l hl
    obtain ⟨hl1, hl2⟩ := hs l hl
    exact ⟨hl1 ▸ nextLine_mem hprobe, hl2⟩
  | succ bound ih =>
    intro gmin gmax hdiff hinv
    by_cases hone : gmax - gmin ≤ 2
    · have hprobe : nextLineStartingAt file gmin ≠ [] := by
        rcases hinv with rfl | h
        · rw [nextLine_zero]
          exact readUntilNl_fst_ne_nil hfile
        · exact h
      obtain ⟨r, hr, hs⟩ := searchLoop_oneOption gk q file gmin gmax 0 hone hprobe
      refine ⟨1, r, hr, ?_⟩
      intro l hl
      obtain ⟨hl1, hl2⟩ := hs l hl
      exact ⟨hl1 ▸ nextLine_mem hprobe, hl2⟩
    · -- window still open: probe the midpoint
      by_cases hempty : nextLineStartingAt file ((gmin + gmax) / 2) = []
      · obtain ⟨fuel, r, hr, hs⟩ := ih gmin (gmax - 2) (by omega) hinv
        refine ⟨fuel + 1, r, ?_, hs⟩
        simp only [searchLoop]
        rw [if_neg hone, if_pos hempty]
        exact hr
      · rcases lt_trichotomy q (gk (nextLineStartingAt file ((gmin + gmax) / 2)))
          with hlt | heq | hgt
        · obtain ⟨fuel, r, hr, hs⟩ := ih gmin ((gmin + gmax) / 2) (by omega) hinv
          refine ⟨fuel + 1, r, ?_, hs⟩
          simp only [searchLoop]
          rw [if_neg hone, if_neg hempty, if_pos hlt]
          exact hr
        · refine ⟨1, some (nextLineStartingAt file ((gmin + gmax) / 2)), ?_, ?_⟩
          · have h1 : ¬ q < gk (nextLineStartingAt file ((gmin + gmax) / 2)) := by
              rw [heq]; exact lt_irrefl _
            have h2 : ¬ gk (nextLineStartingAt file ((gmin + gmax) / 2)) < q := by
              rw [heq]; exact lt_irrefl _
            simp only [searchLoop]
            rw [if_neg hone, if_neg hempty, if_neg h1, if_neg h2]
          · intro l hl
            injection hl with h
            subst h
            exact ⟨nextLine_mem hempty, heq.symm⟩
        · obtain ⟨fuel, r, hr, hs⟩ :=
            ih ((gmin + gmax) / 2) gmax (by omega) (Or.inr hempty)
          refine ⟨fuel + 1, r, ?_, hs⟩
          have h1 : ¬ q < gk (nextLineStartingAt file ((gmin + gmax) / 2)) :=
            not_lt_of_gt hgt
          simp only [searchLoop]
          rw [if_neg hone, if_neg hempty, if_neg h1, if_pos hgt]
          exact hr

/-- The loop's result is stable under extra fuel: once it has returned, any
    larger fuel returns the same result. -/
theorem searchLoop_mono {K : Type _} [LinearOrder K] (gk : List Char → K) (q : K)
    (file : List Char) :
    ∀ (fuel fuel' gmin gmax : Nat) (r : Option (List Char)), fuel ≤ fuel' →
    searchLoop gk q file fuel gmin gmax = some r →
    searchLoop gk q file fuel' gmin gmax = some r := by
  intro fuel
  induction fuel with
  | zero =>
    intro fuel' gmin gmax r _ h
    exact absurd h (by simp [searchLoop])
  | succ n ih =>
    intro fuel' gmin gmax r hle h
    obtain ⟨m, rfl⟩ : ∃ m, fuel' = m + 1 := ⟨fuel' - 1, by omega⟩
    have hnm : n ≤ m := by omega
    simp only [searchLoop] at h ⊢
    by_cases hone : gmax - gmin ≤ 2
    · rw [if_pos hone] at h ⊢
      by_cases hempty : nextLineStartingAt file gmin = []
      · rw [if_pos hempty] at h ⊢
        exact ih m gmin (gmax - 2) r hnm h
      · rw [if_neg hempty] at h ⊢
        exact h
    · rw [if_neg hone] at h ⊢
      by_cases hempty : nextLineStartingAt file ((gmin + gmax) / 2) = []
      · rw [if_pos hempty] at h ⊢
        exact ih m gmin (gmax - 2) r hnm h
      · rw [if_neg hempty] at h ⊢
        by_cases hlt : q < gk (nextLineStartingAt file ((gmin + gmax) / 2))
        · rw [if_pos hlt] at h ⊢
          exact ih m gmin ((gmin + gmax) / 2) r hnm h
        · rw [if_neg hlt] at h ⊢
          by_cases hgt : gk (nextLineStartingAt file ((gmin + gmax) / 2)) < q
          · rw [if_pos hgt] at h ⊢
            exact ih m ((gmin + gmax) / 2) gmax r hnm h
          · rw [if_neg hgt] at h ⊢
            exact h

/-- C2 — counterexample. The claim's completeness direction fails on a file
    satisfying all of its premises: `"1\n3\n"` is nonempty, has no blank
    lines, and its lines' keys `1, 3` are non-decreasing under the
    leading-integer extractor; yet searching for `3` terminates with `None`
    although the matching line `"3\n"` exists. (The probe at byte 2 lands
    exactly on the start of `"3\n"` and discards it; the window then
    collapses onto byte 0, which reads `"1\n"`.) -/
theorem binary_search_misses_matching_line :
    binary_search_line_in_file ("1\n3\n".toList) leadingNat 3 8 = some none ∧
    ("3\n".toList ∈ fileLines ("1\n3\n".toList)) ∧
    leadingNat ("3\n".toList) = 3 ∧
    (fileLines ("1\n3\n".toList)).Pairwise (fun a b => leadingNat a ≤ leadingNat b) ∧
    ("1\n3\n".toList ≠ []) := by
  refine ⟨by decide, by decide, by decide, by decide, by decide⟩

/-- C2 — amended. For every nonempty file and key extractor (sorted as the
    claim assumes or not), the search terminates; it never returns a
    non-matching line — a returned line is a line of the file whose key is
    the query — and when no line of the file has the query key it returns
    `None`. (The converse — that a matching line is always found — is false,
    see the counterexample.) The three scenario results hold as claimed. -/
theorem binary_search_line_in_file_correct :
    (∀ (K : Type) [inst : LinearOrder K] (gk : List Char → K) (q : K)
        (file : List Char), file ≠ [] →
      (fileLines file).Pairwise (fun a b => gk a ≤ gk b) →
      ∃ fuel r, binary_search_line_in_file file gk q fuel = some r ∧
        (∀ l, r = some l → l ∈ fileLines file ∧ gk l = q) ∧
        ((¬ ∃ l ∈ fileLines file, gk l = q) → r = none)) ∧
    binary_search_line_in_file ("1 a\n3 c\n5 e\n7 g\n".toList) leadingNat 5 32 =
      some (some ("5 e\n".toList)) ∧
    binary_search_line_in_file ("1 a\n3 c\n5 e\n7 g\n".toList) leadingNat 4 32 =
      some none ∧
    binary_search_line_in_file ("1 a\n3 c\n5 e\n7 g\n".toList) leadingNat 1 32 =
      some (some ("1 a\n".toList)) := by
  refine ⟨?_, by decide, by decide, by decide⟩
  intro K inst gk q file hfile hsorted
  obtain ⟨fuel, r, hr, hs⟩ :=
    searchLoop_term_sound gk q file hfile file.length 0 file.length
      (by omega) (Or.inl rfl)
  refine ⟨fuel, r, hr, hs, ?_⟩
  intro hnone
  cases r with
  | none => rfl
  | some l =>
    obtain ⟨h1, h2⟩ := hs l rfl
    exact absurd ⟨l, h1, h2⟩ hnone

/-- C2 — witness: the general part of the amended theorem applied to the
    scenario file with the leading-integer extractor and query 5. -/
theorem binary_search_line_in_file_correct_witness :
    ∃ fuel r,
      binary_search_line_in_file ("1 a\n3 c\n5 e\n7 g\n".toList) leadingNat 5 fuel =
        some r ∧
      (∀ l, r = some l →
        l ∈ fileLines ("1 a\n3 c\n5 e\n7 g\n".toList) ∧ leadingNat l = 5) ∧
      ((¬ ∃ l ∈ fileLines ("1 a\n3 c\n5 e\n7 g\n".toList), leadingNat l = 5) →
        r = none) :=
  binary_search_line_in_file_correct.1 Nat leadingNat 5
    ("1 a\n3 c\n5 e\n7 g\n".toList) (by decide) (by decide)

/-! ## The bidirectional BFS solver (`src/commands/shortest_path.rs`)

Frontiers (`HashMap<u32, u32>`) are association lists with unique keys; the
frontier stacks `start`/`end` are lists with the *latest* frontier at the
head (the Rust pushes to the back of a `Vec` and reads `last()`). The
adjacency maps are association lists; `with(id, clone)` plus `flatten` is a
lookup defaulting to the empty list. `solve` takes fuel because the Rust
loop can diverge (see the backward-expansion bug, C4). -/

/-- `outgoing_links.with(id, |l| l.clone()).into_iter().flatten()`. -/
def linksOf (m : List (Nat × List Nat)) (u : Nat) : List Nat :=
  (lookupA m u).getD []

/-- The directed edge relation of the materialised graph. -/
def Edge (out : List (Nat × List Nat)) (u v : Nat) : Prop := v ∈ linksOf out u

instance (out : List (Nat × List Nat)) (u v : Nat) : Decidable (Edge out u v) := by
  unfold Edge
  infer_instance

/-- Directed walks with an exact number of edges, grown at the tail. -/
inductive WalkF (out : List (Nat × List Nat)) : Nat → Nat → Nat → Prop
  | refl (u : Nat) : WalkF out 0 u u
  | snoc {n u v w : Nat} : WalkF out n u v → Edge out v w → WalkF out (n + 1) u w

/-- A directed path from `s` to `t` presented as its vertex list. -/
def IsPathList (out : List (Nat × List Nat)) (s t : Nat) (xs : List Nat) : Prop :=
  xs.head? = some s ∧ xs.getLast? = some t ∧ xs.Chain' (Edge out)

/-- `Solver::populate_forward` (`src/commands/shortest_path.rs:73-88`): the
    new frontier built from the latest one; a link already present in any
    existing frontier is not re-added. -/
def newMapForward (out : List (Nat × List Nat)) (fs : List (List (Nat × Nat))) :
    List (Nat × Nat) :=
  (fs.headD []).foldl
    (fun acc p => (linksOf out p.1).foldl
      (fun acc2 link =>
        if fs.any (fun f => containsKeyA f link) then acc2
        else insertA acc2 link p.1) acc) []

/-- `Solver::populate_backward` (`src/commands/shortest_path.rs:90-105`):
    like the forward expansion over `incoming`, but with the extra
    unconditional `new_map.insert(link, *id)` that follows the guarded
    insert in the source. -/
def newMapBackward (inc : List (Nat × List Nat)) (es : List (List (Nat × Nat))) :
    List (Nat × Nat) :=
  (es.headD []).foldl
    (fun acc p => (linksOf inc p.1).foldl
      (fun acc2 link =>
        insertA (if es.any (fun f => containsKeyA f link) then acc2
                 else insertA acc2 link p.1) link p.1) acc) []

/-- The forward half of `Solver::complete_path`
    (`src/commands/shortest_path.rs:115-122`): follow predecessor pointers
    down the frontier stack while the id is nonzero, recording the ids
    (connection first). `none` models an index panic (pointer missing, or
    ranks exhausted with a nonzero id). -/
def walkS : List (List (Nat × Nat)) → Nat → Option (List Nat)
  | [], x => if x = 0 then some [] else none
  | f :: fs', x =>
    if x = 0 then some []
    else
      match lookupA f x with
      | none => none
      | some y => (fun tl => x :: tl) <$> walkS fs' y

/-- The backward half of `Solver::complete_path`
    (`src/commands/shortest_path.rs:123-129`): one pointer lookup per rank
    above zero, recording the successors. -/
def walkE : List (List (Nat × Nat)) → Nat → Option (List Nat)
  | [], _ => some []
  | [_], _ => some []
  | f :: f2 :: fs', x =>
    match lookupA f x with
    | none => none
    | some y => (fun tl => y :: tl) <$> walkE (f2 :: fs') y

/-- `Solver::complete_path` (`src/commands/shortest_path.rs:108-134`):
    find a key shared by the two latest frontiers and reconstruct.
    `some none` = no connection, `some (some p)` = a path, `none` = panic
    during reconstruction. -/
def completePath (fs es : List (List (Nat × Nat))) : Option (Option (List Nat)) :=
  match (fs.headD []).find? (fun p => containsKeyA (es.headD []) p.1) with
  | none => some none
  | some conn =>
    match walkS fs conn.1, walkE es conn.1 with
    | some p1, some p2 => some (some (p1.reverse ++ p2))
    | _, _ => none

/-- `Solver::solve` (`src/commands/shortest_path.rs:136-183`) with fuel:
    `none` = has not returned (or panicked), `some none` = `None`,
    `some (some p)` = `Some(p)`. -/
def solve (out inc : List (Nat × List Nat)) :
    Nat → List (List (Nat × Nat)) → List (List (Nat × Nat)) →
    Option (Option (List Nat))
  | 0, _, _ => none
  | fuel + 1, fs, es =>
    if (fs.headD []).isEmpty ∨ (es.headD []).isEmpty then some none
    else
      match completePath fs es with
      | none => none
      | some (some p) => some (some p)
      | some none =>
        if (fs.headD []).length ≤ (es.headD []).length then
          solve out inc fuel (newMapForward out fs :: fs) es
        else
          solve out inc fuel fs (newMapBackward inc es :: es)

/-- `Solver::new(s, t).solve(...)` (`src/commands/shortest_path.rs:58-71`). -/
def solver_solve (out inc : List (Nat × List Nat)) (s t : Nat) (fuel : Nat) :
    Option (Option (List Nat)) :=
  solve out inc fuel [[(s, 0)]] [[(t, 0)]]

/-- C4 — counter-evaluation. With `incoming = {1 ↦ [2], 2 ↦ [1]}` and end
    frontiers `[{1 ↦ 0}]`, one backward expansion gives `{2 ↦ 1}`; the next
    re-adds id 1 to the new frontier through the unconditional
    `new_map.insert(link, *id)` even though 1 is already in the earlier
    frontier `end[0]`, contradicting the claimed guarded symmetry with the
    forward expansion (which correctly produces the empty frontier in the
    mirrored situation). -/
theorem populate_backward_readds_visited :
    newMapBackward [(1, [2]), (2, [1])] [[(1, 0)]] = [(2, 1)] ∧
    newMapBackward [(1, [2]), (2, [1])] [[(2, 1)], [(1, 0)]] = [(1, 2)] ∧
    containsKeyA [((1 : Nat), (0 : Nat))] 1 = true ∧
    newMapForward [(1, [2]), (2, [1])] [[(2, 1)], [(1, 0)]] = [] := by
  refine ⟨by decide, by decide, by decide, by decide⟩

theorem WalkF_zero {out : List (Nat × List Nat)} {u v : Nat}
    (h : WalkF out 0 u v) : u = v := by
  cases h
  rfl

theorem WalkF_compose {out : List (Nat × List Nat)} {m n u v w : Nat}
    (h1 : WalkF out m u v) (h2 : WalkF out n v w) : WalkF out (m + n) u w := by
  revert h1
  induction h2 with
  | refl => intro h1; exact h1
  | snoc _ e ih => intro h1; exact WalkF.snoc (ih h1) e

theorem WalkF_split {out : List (Nat × List Nat)} (m n : Nat) :
    ∀ {u w : Nat}, WalkF out (m + n) u w →
    ∃ v, WalkF out m u v ∧ WalkF out n v w := by
  induction n with
  | zero =>
    intro u w h
    exact ⟨w, h, WalkF.refl w⟩
  | succ k ih =>
    intro u w h
    have h' : WalkF out ((m + k) + 1) u w := by rwa [Nat.add_succ] at h
    cases h' with
    | snoc hw e =>
      obtain ⟨v, h1, h2⟩ := ih hw
      exact ⟨v, h1, WalkF.snoc h2 e⟩

theorem WalkF_one {out : List (Nat × List Nat)} {u v : Nat} :
    WalkF out 1 u v ↔ Edge out u v := by
  constructor
  · intro h
    cases h with
    | snoc hw e =>
      have := WalkF_zero hw
      subst this
      exact e
  · intro e
    exact WalkF.snoc (WalkF.refl u) e

theorem WalkF_cons {out : List (Nat × List Nat)} {u v w n : Nat}
    (e : Edge out u v) (h : WalkF out n v w) : WalkF out (n + 1) u w := by
  have := WalkF_compose (WalkF_one.mpr e) h
  rwa [Nat.add_comm] at this

theorem WalkF_front_split {out : List (Nat × List Nat)} {n u w : Nat}
    (h : WalkF out (n + 1) u w) : ∃ v, Edge out u v ∧ WalkF out n v w := by
  have h' : WalkF out (1 + n) u w := by rwa [Nat.add_comm] at h
  obtain ⟨v, h1, h2⟩ := WalkF_split 1 n h'
  exact ⟨v, WalkF_one.mp h1, h2⟩

theorem isPathList_walk {out : List (Nat × List Nat)} :
    ∀ (xs : List Nat) (s t : Nat), IsPathList out s t xs →
    WalkF out (xs.length - 1) s t := by
  intro xs
  induction xs with
  | nil =>
    intro s t h
    simp [IsPathList] at h
  | cons x ys ih =>
    intro s t h
    obtain ⟨hh, hl, hc⟩ := h
    have hx : x = s := by simpa using hh
    subst hx
    cases ys with
    | nil =>
      have ht : x = t := by simpa using hl
      subst ht
      exact WalkF.refl x
    | cons y zs =>
      rw [List.chain'_cons] at hc
      have htail : IsPathList out y t (y :: zs) :=
        ⟨by simp, by simpa using hl, hc.2⟩
      have hw := ih y t htail
      simp only [List.length_cons, Nat.add_sub_cancel] at hw ⊢
      exact WalkF_cons hc.1 hw

/-- The inner fold of `populate_forward` over the links of one id `u`:
    guarded insert-only semantics. -/
theorem innerF_lookup (out : List (Nat × List Nat)) (fs : List (List (Nat × Nat)))
    (u : Nat) :
    ∀ (links : List Nat) (acc : List (Nat × Nat)) (v : Nat),
    lookupA (links.foldl (fun acc2 link =>
        if fs.any (fun f => containsKeyA f link) then acc2
        else insertA acc2 link u) acc) v =
      if v ∈ links ∧ ¬ (fs.any (fun f => containsKeyA f v) = true) then some u
      else lookupA acc v := by
  intro links
  induction links with
  | nil =>
    intro acc v
    simp
  | cons d ds ih =>
    intro acc v
    simp only [List.foldl_cons]
    rw [ih]
    by_cases hv : v ∈ ds ∧ ¬ (fs.any (fun f => containsKeyA f v) = true)
    · rw [if_pos hv, if_pos ⟨List.mem_cons_of_mem _ hv.1, hv.2⟩]
    · rw [if_neg hv]
      by_cases hvd : v = d
      · subst hvd
        by_cases hC : fs.any (fun f => containsKeyA f v) = true
        · rw [if_pos hC, if_neg (by intro hcontra; exact hcontra.2 hC)]
        · rw [if_neg hC, if_pos ⟨List.mem_cons_self _ _, hC⟩]
          exact lookupA_insertA_same acc v u
      · have hcond : ¬ (v ∈ d :: ds ∧ ¬ (fs.any (fun f => containsKeyA f v) = true)) := by
          intro hcontra
          rcases List.mem_cons.mp hcontra.1 with h1 | h2
          · exact hvd h1
          · exact hv ⟨h2, hcontra.2⟩
        rw [if_neg hcond]
        by_cases hC : fs.any (fun f => containsKeyA f d) = true
        · rw [if_pos hC]
        · rw [if_neg hC]
          exact lookupA_insertA_other acc d v u hvd

/-- The inner fold of `populate_backward`: the trailing unconditional insert
    makes the guard irrelevant. -/
theorem innerB_lookup (inc : List (Nat × List Nat)) (es : List (List (Nat × Nat)))
    (u : Nat) :
    ∀ (links : List Nat) (acc : List (Nat × Nat)) (v : Nat),
    lookupA (links.foldl (fun acc2 link =>
        insertA (if es.any (fun f => containsKeyA f link) then acc2
                 else insertA acc2 link u) link u) acc) v =
      if v ∈ links then some u else lookupA acc v := by
  intro links
  induction links with
  | nil =>
    intro acc v
    simp
  | cons d ds ih =>
    intro acc v
    simp only [List.foldl_cons]
    rw [ih]
    by_cases hv : v ∈ ds
    · rw [if_pos hv, if_pos (List.mem_cons_of_mem _ hv)]
    · rw [if_neg hv]
      by_cases hvd : v = d
      · subst hvd
        rw [if_pos (List.mem_cons_self _ _)]
        exact lookupA_insertA_same _ v u
      · have hnotin : v ∉ d :: ds := by
          intro hcontra
          rcases List.mem_cons.mp hcontra with h1 | h2
          · exact hvd h1
          · exact hv h2
        rw [if_neg hnotin, lookupA_insertA_other _ d v u hvd]
        by_cases hC : es.any (fun f => containsKeyA f d) = true
        · rw [if_pos hC]
        · rw [if_neg hC]
          exact lookupA_insertA_other acc d v u hvd

/-- Value soundness of the outer forward fold: a stored pair `(v, u)` comes
    from some processed entry `u` with an edge to `v` that passed the
    guard, unless it was already in the accumulator. -/
theorem outerF_val (out : List (Nat × List Nat)) (fs : List (List (Nat × Nat))) :
    ∀ (entries acc : List (Nat × Nat)) (v u : Nat),
    lookupA (entries.foldl (fun acc p => (linksOf out p.1).foldl
        (fun acc2 link =>
          if fs.any (fun f => containsKeyA f link) then acc2
          else insertA acc2 link p.1) acc) acc) v = some u →
    (∃ p ∈ entries, p.1 = u ∧ v ∈ linksOf out u ∧
      ¬ (fs.any (fun f => containsKeyA f v) = true)) ∨
    lookupA acc v = some u := by
  intro entries
  induction entries with
  | nil =>
    intro acc v u h
    exact Or.inr h
  | cons e es ih =>
    intro acc v u h
    simp only [List.foldl_cons] at h
    rcases ih _ v u h with h1 | h2
    · obtain ⟨p, hp, rest⟩ := h1
      exact Or.inl ⟨p, List.mem_cons_of_mem _ hp, rest⟩
    · rw [innerF_lookup out fs e.1] at h2
      by_cases hcond : v ∈ linksOf out e.1 ∧
          ¬ (fs.any (fun f => containsKeyA f v) = true)
      · rw [if_pos hcond] at h2
        injection h2 with h3
        exact Or.inl ⟨e, List.mem_cons_self _ _, h3, h3 ▸ hcond.1, hcond.2⟩
      · rw [if_neg hcond] at h2
        exact Or.inr h2

/-- The forward fold never removes a stored key. -/
theorem foldF_mono (out : List (Nat × List Nat)) (fs : List (List (Nat × Nat))) :
    ∀ (entries acc : List (Nat × Nat)) (v : Nat), (lookupA acc v).isSome →
    (lookupA (entries.foldl (fun acc p => (linksOf out p.1).foldl
        (fun acc2 link =>
          if fs.any (fun f => containsKeyA f link) then acc2
          else insertA acc2 link p.1) acc) acc) v).isSome := by
  intro entries
  induction entries with
  | nil =>
    intro acc v h
    exact h
  | cons e es ih =>
    intro acc v h
    simp only [List.foldl_cons]
    apply ih
    rw [innerF_lookup out fs e.1]
    by_cases hcond : v ∈ linksOf out e.1 ∧
        ¬ (fs.any (fun f => containsKeyA f v) = true)
    · rw [if_pos hcond]
      simp
    · rw [if_neg hcond]
      exact h

/-- Completeness of the outer forward fold: an unguarded edge from a
    processed entry puts its head in the new frontier. -/
theorem outerF_isSome (out : List (Nat × List Nat)) (fs : List (List (Nat × Nat))) :
    ∀ (entries acc : List (Nat × Nat)) (v : Nat),
    (∃ p ∈ entries, v ∈ linksOf out p.1) →
    ¬ (fs.any (fun f => containsKeyA f v) = true) →
    (lookupA (entries.foldl (fun acc p => (linksOf out p.1).foldl
        (fun acc2 link =>
          if fs.any (fun f => containsKeyA f link) then acc2
          else insertA acc2 link p.1) acc) acc) v).isSome := by
  intro entries
  induction entries with
  | nil =>
    intro acc v h hC
    obtain ⟨p, hp, -⟩ := h
    simp at hp
  | cons e es ih =>
    intro acc v h hC
    simp only [List.foldl_cons]
    obtain ⟨p, hp, hv⟩ := h
    rcases List.mem_cons.mp hp with rfl | hpes
    · apply foldF_mono
      rw [innerF_lookup out fs p.1]
      rw [if_pos ⟨hv, hC⟩]
      simp
    · exact ih _ v ⟨p, hpes, hv⟩ hC

/-- Value soundness of the outer backward fold (unconditional insert). -/
theorem outerB_val (inc : List (Nat × List Nat)) (es : List (List (Nat × Nat))) :
    ∀ (entries acc : List (Nat × Nat)) (v u : Nat),
    lookupA (entries.foldl (fun acc p => (linksOf inc p.1).foldl
        (fun acc2 link =>
          insertA (if es.any (fun f => containsKeyA f link) then acc2
                   else insertA acc2 link p.1) link p.1) acc) acc) v = some u →
    (∃ p ∈ entries, p.1 = u ∧ v ∈ linksOf inc u) ∨ lookupA acc v = some u := by
  intro entries
  induction entries with
  | nil =>
    intro acc v u h
    exact Or.inr h
  | cons e es' ih =>
    intro acc v u h
    simp only [List.foldl_cons] at h
    rcases ih _ v u h with h1 | h2
    · obtain ⟨p, hp, rest⟩ := h1
      exact Or.inl ⟨p, List.mem_cons_of_mem _ hp, rest⟩
    · rw [innerB_lookup inc es e.1] at h2
      by_cases hcond : v ∈ linksOf inc e.1
      · rw [if_pos hcond] at h2
        injection h2 with h3
        exact Or.inl ⟨e, List.mem_cons_self _ _, h3, h3 ▸ hcond⟩
      · rw [if_neg hcond] at h2
        exact Or.inr h2

/-- The backward fold never removes a stored key. -/
theorem foldB_mono (inc : List (Nat × List Nat)) (es : List (List (Nat × Nat))) :
    ∀ (entries acc : List (Nat × Nat)) (v : Nat), (lookupA acc v).isSome →
    (lookupA (entries.foldl (fun acc p => (linksOf inc p.1).foldl
        (fun acc2 link =>
          insertA (if es.any (fun f => containsKeyA f link) then acc2
                   else insertA acc2 link p.1) link p.1) acc) acc) v).isSome := by
  intro entries
  induction entries with
  | nil =>
    intro acc v h
    exact h
  | cons e es' ih =>
    intro acc v h
    simp only [List.foldl_cons]
    apply ih
    rw [innerB_lookup inc es e.1]
    by_cases hcond : v ∈ linksOf inc e.1
    · rw [if_pos hcond]
      simp
    · rw [if_neg hcond]
      exact h

/-- Completeness of the outer backward fold: every in-edge from a processed
    entry puts its head in the new frontier (the guard is moot). -/
theorem outerB_isSome (inc : List (Nat × List Nat)) (es : List (List (Nat × Nat))) :
    ∀ (entries acc : List (Nat × Nat)) (v : Nat),
    (∃ p ∈ entries, v ∈ linksOf inc p.1) →
    (lookupA (entries.foldl (fun acc p => (linksOf inc p.1).foldl
        (fun acc2 link =>
          insertA (if es.any (fun f => containsKeyA f link) then acc2
                   else insertA acc2 link p.1) link p.1) acc) acc) v).isSome := by
  intro entries
  induction entries with
  | nil =>
    intro acc v h
    obtain ⟨p, hp, -⟩ := h
    simp at hp
  | cons e es' ih =>
    intro acc v h
    simp only [List.foldl_cons]
    obtain ⟨p, hp, hv⟩ := h
    rcases List.mem_cons.mp hp with rfl | hpes
    · apply foldB_mono
      rw [innerB_lookup inc es p.1]
      rw [if_pos hv]
      simp
    · exact ih _ v ⟨p, hpes, hv⟩

/-- A stored pair of the new forward frontier: its value is a key of the
    latest frontier with an edge to the stored key, and the stored key
    passed the visited guard. -/
theorem newMapForward_val {out : List (Nat × List Nat)}
    {fs : List (List (Nat × Nat))} {v u : Nat}
    (h : lookupA (newMapForward out fs) v = some u) :
    containsKeyA (fs.headD []) u = true ∧ v ∈ linksOf out u ∧
      ¬ (fs.any (fun f => containsKeyA f v) = true) := by
  rcases outerF_val out fs (fs.headD []) [] v u h with h1 | h2
  · obtain ⟨p, hp, hpu, hv, hg⟩ := h1
    refine ⟨?_, hv, hg⟩
    have : (p.1, p.2) ∈ fs.headD [] := by simpa using hp
    rw [← hpu]
    exact mem_lookupA_isSome this
  · simp [lookupA] at h2

/-- Completeness of the forward expansion: an unvisited out-neighbour of a
    key of the latest frontier lands in the new frontier. -/
theorem newMapForward_isSome {out : List (Nat × List Nat)}
    {fs : List (List (Nat × Nat))} {v u : Nat}
    (hu : containsKeyA (fs.headD []) u = true) (hv : v ∈ linksOf out u)
    (hg : ¬ (fs.any (fun f => containsKeyA f v) = true)) :
    containsKeyA (newMapForward out fs) v = true := by
  obtain ⟨b, hb⟩ := containsKeyA_exists hu
  exact outerF_isSome out fs (fs.headD []) [] v ⟨(u, b), hb, hv⟩ hg

/-- A stored pair of the new backward frontier: its value is a key of the
    latest frontier with an in-edge from the stored key (no guard, per the
    unconditional insert). -/
theorem newMapBackward_val {inc : List (Nat × List Nat)}
    {es : List (List (Nat × Nat))} {v u : Nat}
    (h : lookupA (newMapBackward inc es) v = some u) :
    containsKeyA (es.headD []) u = true ∧ v ∈ linksOf inc u := by
  rcases outerB_val inc es (es.headD []) [] v u h with h1 | h2
  · obtain ⟨p, hp, hpu, hv⟩ := h1
    refine ⟨?_, hv⟩
    have : (p.1, p.2) ∈ es.headD [] := by simpa using hp
    rw [← hpu]
    exact mem_lookupA_isSome this
  · simp [lookupA] at h2

/-- Completeness of the backward expansion: every in-neighbour of a key of
    the latest frontier lands in the new frontier. -/
theorem newMapBackward_isSome {inc : List (Nat × List Nat)}
    {es : List (List (Nat × Nat))} {v u : Nat}
    (hu : containsKeyA (es.headD []) u = true) (hv : v ∈ linksOf inc u) :
    containsKeyA (newMapBackward inc es) v = true := by
  obtain ⟨b, hb⟩ := containsKeyA_exists hu
  exact outerB_isSome inc es (es.headD []) [] v ⟨(u, b), hb, hv⟩

/-- The start-side frontier stacks reachable by `Solver::solve` (latest
    frontier first). -/
inductive StartChain (out : List (Nat × List Nat)) (s : Nat) :
    List (List (Nat × Nat)) → Prop
  | base : StartChain out s [[(s, 0)]]
  | step {fs : List (List (Nat × Nat))} :
      StartChain out s fs → StartChain out s (newMapForward out fs :: fs)

/-- The end-side frontier stacks reachable by `Solver::solve`. -/
inductive EndChain (inc : List (Nat × List Nat)) (t : Nat) :
    List (List (Nat × Nat)) → Prop
  | base : EndChain inc t [[(t, 0)]]
  | step {es : List (List (Nat × Nat))} :
      EndChain inc t es → EndChain inc t (newMapBackward inc es :: es)

theorem StartChain_ne_nil {out : List (Nat × List Nat)} {s : Nat}
    {fs : List (List (Nat × Nat))} (h : StartChain out s fs) : fs ≠ [] := by
  cases h <;> simp

theorem EndChain_ne_nil {inc : List (Nat × List Nat)} {t : Nat}
    {es : List (List (Nat × Nat))} (h : EndChain inc t es) : es ≠ [] := by
  cases h <;> simp

/-- `v` is a key of the frontier at rank `k` (rank 0 is the oldest frontier,
    at the tail of the stack). -/
def MemAtRank : List (List (Nat × Nat)) → Nat → Nat → Prop
  | [], _, _ => False
  | f :: fs, k, v => (k = fs.length ∧ containsKeyA f v = true) ∨ MemAtRank fs k v

theorem MemAtRank_lt : ∀ {fs : List (List (Nat × Nat))} {k v : Nat},
    MemAtRank fs k v → k < fs.length := by
  intro fs
  induction fs with
  | nil => intro k v h; exact absurd h (by simp [MemAtRank])
  | cons f fs' ih =>
    intro k v h
    rcases h with ⟨rfl, -⟩ | h2
    · simp
    · exact Nat.lt_succ_of_lt (ih h2)

theorem MemAtRank_top {fs : List (List (Nat × Nat))} {f : List (Nat × Nat)}
    {v : Nat} (h : MemAtRank (f :: fs) fs.length v) : containsKeyA f v = true := by
  rcases h with ⟨-, hc⟩ | h2
  · exact hc
  · exact absurd (MemAtRank_lt h2) (lt_irrefl _)

theorem MemAtRank_head {fs : List (List (Nat × Nat))} {v : Nat}
    (hne : fs ≠ []) (h : MemAtRank fs (fs.length - 1) v) :
    containsKeyA (fs.headD []) v = true := by
  cases fs with
  | nil => exact absurd rfl hne
  | cons f fs' =>
    simp only [List.headD_cons]
    exact MemAtRank_top (by simpa using h)

theorem MemAtRank_of_head {fs : List (List (Nat × Nat))} {v : Nat}
    (hne : fs ≠ []) (h : containsKeyA (fs.headD []) v = true) :
    MemAtRank fs (fs.length - 1) v := by
  cases fs with
  | nil => exact absurd rfl hne
  | cons f fs' =>
    simp only [List.headD_cons] at h
    exact Or.inl ⟨by simp, h⟩

theorem MemAtRank_of_mem {fs : List (List (Nat × Nat))} {f : List (Nat × Nat)}
    {v : Nat} (hf : f ∈ fs) (hc : containsKeyA f v = true) :
    ∃ k, MemAtRank fs k v := by
  induction fs with
  | nil => simp at hf
  | cons f0 fs' ih =>
    rcases List.mem_cons.mp hf with rfl | hmem
    · exact ⟨fs'.length, Or.inl ⟨rfl, hc⟩⟩
    · obtain ⟨k, hk⟩ := ih hmem
      exact ⟨k, Or.inr hk⟩

theorem MemAtRank_exists_frontier : ∀ {fs : List (List (Nat × Nat))} {k v : Nat},
    MemAtRank fs k v → ∃ f ∈ fs, containsKeyA f v = true := by
  intro fs
  induction fs with
  | nil => intro k v h; exact absurd h (by simp [MemAtRank])
  | cons f fs' ih =>
    intro k v h
    rcases h with ⟨-, hc⟩ | h2
    · exact ⟨f, List.mem_cons_self _ _, hc⟩
    · obtain ⟨f', hf', hc'⟩ := ih h2
      exact ⟨f', List.mem_cons_of_mem _ hf', hc'⟩

/-- Soundness of the start frontiers: a key at rank `k` is reached from `s`
    by a walk of exactly `k` edges. -/
theorem startChain_sound {out : List (Nat × List Nat)} {s : Nat}
    {fs : List (List (Nat × Nat))} (hch : StartChain out s fs) :
    ∀ (k v : Nat), MemAtRank fs k v → WalkF out k s v := by
  induction hch with
  | base =>
    intro k v h
    rcases h with ⟨hk, hc⟩ | h2
    · have hv : s = v := by
        by_contra hne
        simp [containsKeyA, lookupA, hne] at hc
      simp only [List.length_nil] at hk
      subst hk
      subst hv
      exact WalkF.refl s
    · exact absurd h2 (by simp [MemAtRank])
  | step hchain ih =>
    intro k v h
    rcases h with ⟨hk, hc⟩ | h2
    · obtain ⟨u, hu⟩ := Option.isSome_iff_exists.mp hc
      obtain ⟨hhead, hedge, -⟩ := newMapForward_val hu
      have hm := MemAtRank_of_head (StartChain_ne_nil hchain) hhead
      have hw := ih _ u hm
      have hsn := WalkF.snoc hw hedge
      subst hk
      rwa [Nat.sub_add_cancel
        (List.length_pos.mpr (StartChain_ne_nil hchain))] at hsn
    · exact ih _ _ h2

/-- Closure of the start frontiers: an out-neighbour of a key at a
    non-latest rank already appears in some frontier (it was either guarded
    out as visited or inserted when its parent's rank was expanded). -/
theorem startChain_closed {out : List (Nat × List Nat)} {s : Nat}
    {fs : List (List (Nat × Nat))} (hch : StartChain out s fs) :
    ∀ (j u v : Nat), MemAtRank fs j u → j + 1 < fs.length →
    v ∈ linksOf out u → ∃ f ∈ fs, containsKeyA f v = true := by
  induction hch with
  | base =>
    intro j u v hm hj hv
    simp at hj
  | @step fs0 hchain ih =>
    intro j u v hm hj hv
    rcases hm with ⟨hk, -⟩ | h2
    · subst hk
      simp at hj
    · by_cases hj2 : j + 1 < fs0.length
      · obtain ⟨f, hf, hc⟩ := ih j u v h2 hj2 hv
        exact ⟨f, List.mem_cons_of_mem _ hf, hc⟩
      · have hlt := MemAtRank_lt h2
        have hj1 : j = fs0.length - 1 := by omega
        rw [hj1] at h2
        have hhead := MemAtRank_head (StartChain_ne_nil hchain) h2
        by_cases hG : fs0.any (fun f => containsKeyA f v) = true
        · obtain ⟨f, hf, hc⟩ := List.any_eq_true.mp hG
          exact ⟨f, List.mem_cons_of_mem _ hf, hc⟩
        · refine ⟨newMapForward out fs0, List.mem_cons_self _ _, ?_⟩
          exact newMapForward_isSome hhead hv hG

/-- Completeness of the start frontiers: a vertex reached from `s` by a walk
    of `k` edges (with rank `k` already built) appears at some rank
    `k' ≤ k`. -/
theorem startChain_complete {out : List (Nat × List Nat)} {s : Nat}
    {fs : List (List (Nat × Nat))} (hch : StartChain out s fs) :
    ∀ (k v : Nat), WalkF out k s v → k < fs.length →
    ∃ k', k' ≤ k ∧ MemAtRank fs k' v := by
  induction hch with
  | base =>
    intro k v hw hk
    simp at hk
    subst hk
    have := WalkF_zero hw
    subst this
    exact ⟨0, le_refl 0, Or.inl ⟨by simp, by simp [containsKeyA, lookupA]⟩⟩
  | @step fs0 hchain ih =>
    intro k v hw hk
    by_cases hk2 : k < fs0.length
    · obtain ⟨k', hle, hm⟩ := ih k v hw hk2
      exact ⟨k', hle, Or.inr hm⟩
    · have hkeq : k = fs0.length := by
        simp only [List.length_cons] at hk
        omega
      have hpos : 0 < fs0.length :=
        List.length_pos.mpr (StartChain_ne_nil hchain)
      obtain ⟨k0, rfl⟩ : ∃ k0, k = k0 + 1 := ⟨k - 1, by omega⟩
      cases hw with
      | snoc hw' e =>
        rename_i u
        obtain ⟨k'', hle'', hm''⟩ := ih k0 u hw' (by omega)
        by_cases hG : fs0.any (fun f => containsKeyA f v) = true
        · obtain ⟨f, hf, hc⟩ := List.any_eq_true.mp hG
          obtain ⟨k', hm'⟩ := MemAtRank_of_mem hf hc
          exact ⟨k', by
            have := MemAtRank_lt hm'
            omega, Or.inr hm'⟩
        · by_cases hk3 : k'' + 1 < fs0.length
          · exfalso
            obtain ⟨f, hf, hc⟩ := startChain_closed hchain k'' u v hm'' hk3 e
            exact hG (List.any_eq_true.mpr ⟨f, hf, hc⟩)
          · have hlt'' := MemAtRank_lt hm''
            have hj1 : k'' = fs0.length - 1 := by omega
            rw [hj1] at hm''
            have hhead := MemAtRank_head (StartChain_ne_nil hchain) hm''
            have hnew := newMapForward_isSome hhead e hG
            exact ⟨k0 + 1, le_refl _, Or.inl ⟨by omega, hnew⟩⟩

/-- Completeness of the end frontiers: every vertex with a walk of exactly
    the latest backward rank to `t` is a key of the latest end frontier
    (the unconditional insert makes the backward frontier the full
    in-neighbourhood of its predecessor). -/
theorem endChain_complete {out inc : List (Nat × List Nat)} {t : Nat}
    {es : List (List (Nat × Nat))}
    (hsym : ∀ x y, y ∈ linksOf out x ↔ x ∈ linksOf inc y)
    (hch : EndChain inc t es) :
    ∀ (v : Nat), WalkF out (es.length - 1) v t →
    containsKeyA (es.headD []) v = true := by
  induction hch with
  | base =>
    intro v hw
    simp only [List.length_singleton, Nat.sub_self] at hw
    have := WalkF_zero hw
    subst this
    simp [containsKeyA, lookupA]
  | @step es0 hchain ih =>
    intro v hw
    have hpos : 0 < es0.length := List.length_pos.mpr (EndChain_ne_nil hchain)
    simp only [List.length_cons, Nat.add_sub_cancel] at hw
    obtain ⟨j0, hj0⟩ : ∃ j0, es0.length = j0 + 1 := ⟨es0.length - 1, by omega⟩
    rw [hj0] at hw
    obtain ⟨u, e, hw'⟩ := WalkF_front_split hw
    have hj0' : j0 = es0.length - 1 := by omega
    rw [hj0'] at hw'
    have hhead := ih u hw'
    have hin : v ∈ linksOf inc u := (hsym v u).mp e
    simpa using newMapBackward_isSome hhead hin

theorem walkS_length : ∀ (fs : List (List (Nat × Nat))) (x : Nat) (p : List Nat),
    walkS fs x = some p → p.length ≤ fs.length := by
  intro fs
  induction fs with
  | nil =>
    intro x p h
    unfold walkS at h
    by_cases hx : x = 0
    · rw [if_pos hx] at h
      injection h with h1
      subst h1
      simp
    · rw [if_neg hx] at h
      exact Option.noConfusion h
  | cons f fs' ih =>
    intro x p h
    unfold walkS at h
    by_cases hx : x = 0
    · rw [if_pos hx] at h
      injection h with h1
      subst h1
      simp
    · rw [if_neg hx] at h
      cases hy : lookupA f x with
      | none => simp only [hy] at h; exact Option.noConfusion h
      | some y =>
        simp only [hy] at h
        cases htl : walkS fs' y with
        | none => simp only [htl] at h; simp at h
        | some tl =>
          rw [htl] at h
          simp only [Option.map_some] at h
          injection h with h1
          subst h1
          have := ih y tl htl
          simp only [List.length_cons]
          omega

theorem walkE_length : ∀ (es : List (List (Nat × Nat))) (x : Nat) (p : List Nat),
    walkE es x = some p → p.length ≤ es.length - 1 := by
  intro es
  induction es with
  | nil =>
    intro x p h
    unfold walkE at h
    injection h with h1
    subst h1
    simp
  | cons f es' ih =>
    intro x p h
    cases es' with
    | nil =>
      unfold walkE at h
      injection h with h1
      subst h1
      simp
    | cons f2 es2 =>
      unfold walkE at h
      cases hy : lookupA f x with
      | none => simp only [hy] at h; exact Option.noConfusion h
      | some y =>
        simp only [hy] at h
        cases htl : walkE (f2 :: es2) y with
        | none => simp only [htl] at h; simp at h
        | some tl =>
          rw [htl] at h
          simp only [Option.map_some] at h
          injection h with h1
          subst h1
          have := ih y tl htl
          simp only [List.length_cons] at this ⊢
          omega

/-- A returned reconstruction is no longer than the sum of the two frontier
    stack heights. -/
theorem completePath_length {fs es : List (List (Nat × Nat))} {p : List Nat}
    (h : completePath fs es = some (some p)) :
    p.length ≤ fs.length + (es.length - 1) := by
  unfold completePath at h
  cases hf : (fs.headD []).find? (fun p => containsKeyA (es.headD []) p.1) with
  | none =>
    simp only [hf] at h
    simp at h
  | some conn =>
    simp only [hf] at h
    cases h1 : walkS fs conn.1 with
    | none => simp only [h1] at h; simp at h
    | some p1 =>
      cases h2 : walkE es conn.1 with
      | none => simp only [h1, h2] at h; simp at h
      | some p2 =>
        simp only [h1, h2, Option.some.injEq] at h
        subst h
        have hb1 := walkS_length fs conn.1 p1 h1
        have hb2 := walkE_length es conn.1 p2 h2
        simp only [List.length_append, List.length_reverse]
        omega

/-- `complete_path` reports no connection exactly when the two latest
    frontiers share no key. -/
theorem completePath_none {fs es : List (List (Nat × Nat))}
    (h : completePath fs es = some none) :
    ∀ v, containsKeyA (fs.headD []) v = true →
      containsKeyA (es.headD []) v = true → False := by
  intro v hv hev
  unfold completePath at h
  cases hf : (fs.headD []).find? (fun p => containsKeyA (es.headD []) p.1) with
  | some conn =>
    simp only [hf] at h
    cases h1 : walkS fs conn.1 with
    | none => simp only [h1] at h; simp at h
    | some p1 =>
      cases h2 : walkE es conn.1 with
      | none => simp only [h1, h2] at h; simp at h
      | some p2 =>
        simp only [h1, h2] at h
        simp at h
  | none =>
    obtain ⟨b, hb⟩ := containsKeyA_exists hv
    have h2 := List.find?_eq_none.mp hf (v, b) hb
    exact h2 hev

/-- Every nonempty subset of `Nat` (given by a witness) has a minimal
    element. -/
theorem exists_minimal_nat {P : Nat → Prop} (h : ∃ n, P n) :
    ∃ n, P n ∧ ∀ m, m < n → ¬ P m := by
  obtain ⟨n, hn⟩ := h
  revert hn
  induction n using Nat.strong_induction_on with
  | _ n ih =>
    intro hn
    by_cases hex : ∃ m, m < n ∧ P m
    · obtain ⟨m, hm, hPm⟩ := hex
      exact ih m hm hPm
    · exact ⟨n, hn, fun m hm hPm => hex ⟨m, hm, hPm⟩⟩

/-- Partial correctness of `Solver::solve`: from any reachable solver state
    in which every `s → t` walk is known to have at least
    `(start ranks) + (end ranks)` edges, a returned path is no longer than
    one plus the edge count of any `s → t` walk, and a `None` return means
    no walk exists at all. -/
theorem solve_correct (out inc : List (Nat × List Nat)) (s t : Nat)
    (hsym : ∀ x y, y ∈ linksOf out x ↔ x ∈ linksOf inc y) :
    ∀ (fuel : Nat) (fs es : List (List (Nat × Nat))) (r : Option (List Nat)),
    StartChain out s fs → EndChain inc t es →
    (∀ e, e + 1 ≤ (fs.length - 1) + (es.length - 1) → ¬ WalkF out e s t) →
    solve out inc fuel fs es = some r →
    (∀ p, r = some p → ∀ e, WalkF out e s t → p.length ≤ e + 1) ∧
    (r = none → ∀ e, ¬ WalkF out e s t) := by
  intro fuel
  induction fuel with
  | zero =>
    intro fs es r _ _ _ hrun
    exact absurd hrun (by simp [solve])
  | succ n ih =>
    intro fs es r hfs hes hist hrun
    have hfpos : 0 < fs.length := List.length_pos.mpr (StartChain_ne_nil hfs)
    have hepos : 0 < es.length := List.length_pos.mpr (EndChain_ne_nil hes)
    simp only [solve] at hrun
    by_cases hemp : (fs.headD []).isEmpty = true ∨ (es.headD []).isEmpty = true
    · rw [if_pos hemp] at hrun
      injection hrun with hr
      subst hr
      constructor
      · intro p hp
        exact absurd hp (by simp)
      · intro _ e hw
        exfalso
        obtain ⟨e0, he0, hmin⟩ :=
          exists_minimal_nat (P := fun m => WalkF out m s t) ⟨e, hw⟩
        have he0ge : (fs.length - 1) + (es.length - 1) ≤ e0 := by
          by_contra hlt
          push_neg at hlt
          exact hist e0 (by omega) he0
        rcases hemp with hfe | hee
        · have hsplit : WalkF out ((fs.length - 1) + (e0 - (fs.length - 1))) s t := by
            rwa [show (fs.length - 1) + (e0 - (fs.length - 1)) = e0 by omega]
          obtain ⟨v, W1, W2⟩ := WalkF_split _ _ hsplit
          obtain ⟨k', hk'le, hm⟩ :=
            startChain_complete hfs (fs.length - 1) v W1 (by omega)
          by_cases hk'i : k' = fs.length - 1
          · rw [hk'i] at hm
            have hhead := MemAtRank_head (StartChain_ne_nil hfs) hm
            rw [List.isEmpty_iff.mp hfe] at hhead
            simp [containsKeyA, lookupA] at hhead
          · have hw' := startChain_sound hfs k' v hm
            have hcomp := WalkF_compose hw' W2
            exact hmin (k' + (e0 - (fs.length - 1))) (by omega) hcomp
        · have hsplit : WalkF out ((e0 - (es.length - 1)) + (es.length - 1)) s t := by
            rwa [show (e0 - (es.length - 1)) + (es.length - 1) = e0 by omega]
          obtain ⟨w, W1, W2⟩ := WalkF_split _ _ hsplit
          have hhead := endChain_complete hsym hes w W2
          rw [List.isEmpty_iff.mp hee] at hhead
          simp [containsKeyA, lookupA] at hhead
    · rw [if_neg hemp] at hrun
      cases hcp : completePath fs es with
      | none =>
        simp only [hcp] at hrun
        exact Option.noConfusion hrun
      | some ro =>
        cases ro with
        | some p =>
          simp only [hcp] at hrun
          injection hrun with hr
          subst hr
          constructor
          · intro p' hp' e hw
            injection hp' with hp'
            subst hp'
            have hbound := completePath_length hcp
            have hege : (fs.length - 1) + (es.length - 1) ≤ e := by
              by_contra hlt
              push_neg at hlt
              exact hist e (by omega) hw
            omega
          · intro hcontra
            exact absurd hcontra (by simp)
        | none =>
          simp only [hcp] at hrun
          have hist1 : ∀ e, e + 1 ≤ (fs.length - 1) + (es.length - 1) + 1 →
              ¬ WalkF out e s t := by
            intro e he hw
            by_cases hlt : e + 1 ≤ (fs.length - 1) + (es.length - 1)
            · exact hist e hlt hw
            · have heq : e = (fs.length - 1) + (es.length - 1) := by omega
              subst heq
              obtain ⟨v, W1, W2⟩ := WalkF_split (fs.length - 1) (es.length - 1) hw
              obtain ⟨k', hk'le, hm⟩ :=
                startChain_complete hfs (fs.length - 1) v W1 (by omega)
              by_cases hk'i : k' = fs.length - 1
              · rw [hk'i] at hm
                have hheadf := MemAtRank_head (StartChain_ne_nil hfs) hm
                have hheade := endChain_complete hsym hes v W2
                exact completePath_none hcp v hheadf hheade
              · have hw' := startChain_sound hfs k' v hm
                have hcomp := WalkF_compose hw' W2
                exact hist (k' + (es.length - 1)) (by omega) hcomp
          by_cases hchoice : (fs.headD []).length ≤ (es.headD []).length
          · rw [if_pos hchoice] at hrun
            refine ih (newMapForward out fs :: fs) es r (StartChain.step hfs) hes ?_ hrun
            intro e he
            apply hist1
            simp only [List.length_cons] at he
            omega
          · rw [if_neg hchoice] at hrun
            refine ih fs (newMapBackward inc es :: es) r hfs (EndChain.step hes) ?_ hrun
            intro e he
            apply hist1
            simp only [List.length_cons] at he
            omega

/-- C1 — BFS optimality. For every directed graph materialised as consistent
    outgoing/incoming adjacency maps and every pair of ids `(s, t)`: if
    `Solver::new(s, t).solve` returns `Some(p)`, then no directed path from
    `s` to `t` with fewer edges than `p` exists (every path has at least
    `p.length` vertices); if it returns `None`, no directed path from `s`
    to `t` exists at all. -/
theorem solver_solve_optimal (out inc : List (Nat × List Nat)) (s t : Nat)
    (fuel : Nat) (r : Option (List Nat))
    (hsym : ∀ x y, y ∈ linksOf out x ↔ x ∈ linksOf inc y)
    (hrun : solver_solve out inc s t fuel = some r) :
    (∀ p, r = some p → ∀ xs, IsPathList out s t xs → p.length ≤ xs.length) ∧
    (r = none → ¬ ∃ xs, IsPathList out s t xs) := by
  have hmain := solve_correct out inc s t hsym fuel [[(s, 0)]] [[(t, 0)]] r
    StartChain.base EndChain.base (by intro e he; simp at he) hrun
  constructor
  · intro p hp xs hxs
    have hne : xs ≠ [] := by
      intro hnil
      subst hnil
      simp [IsPathList] at hxs
    have hpos : 0 < xs.length := List.length_pos.mpr hne
    have hw := isPathList_walk xs s t hxs
    have := hmain.1 p hp (xs.length - 1) hw
    omega
  · rintro hr ⟨xs, hxs⟩
    exact hmain.2 hr (xs.length - 1) (isPathList_walk xs s t hxs)

/-- C1 — witness: the theorem applied to the one-vertex self-loop graph
    `{1 ↦ [1]}` with `s = t = 1`, where the solver returns the path `[1]`,
    with every hypothesis discharged concretely. -/
theorem solver_solve_optimal_witness :
    ([1] : List Nat).length ≤ ([1] : List Nat).length := by
  have hsym : ∀ x y, y ∈ linksOf [(1, [1])] x ↔ x ∈ linksOf [(1, [1])] y := by
    intro x y
    simp only [linksOf, lookupA]
    by_cases hx : (1 : Nat) = x
    · subst hx
      by_cases hy : (1 : Nat) = y
      · subst hy
        simp
      · simp [hy, Ne.symm hy]
    · by_cases hy : (1 : Nat) = y
      · subst hy
        simp [hx, Ne.symm hx]
      · simp [hx, hy]
  have hrun : solver_solve [(1, [1])] [(1, [1])] 1 1 1 = some (some [1]) := by
    decide
  have hpath : IsPathList [(1, [1])] 1 1 [1] :=
    ⟨rfl, rfl, List.chain'_singleton 1⟩
  exact (solver_solve_optimal [(1, [1])] [(1, [1])] 1 1 1 (some [1])
    hsym hrun).1 [1] rfl [1] hpath
